import Mathlib

/- Verification of the Checked C bounds-widening core: a shallow embedding of
   the PreorderAST canonicalizer (clang/lib/AST/PreorderAST.cpp), the QueueSet
   work queue (clang/include/clang/AST/ExprUtils.h) and the bounds-widening
   dataflow fixpoint engine (clang/include/clang/Sema/BoundsWideningAnalysis.h),
   together with proofs of the specified properties. -/

namespace BW

/-! ## Target integer model

The canonicalizer evaluates integer constant expressions at the width of the
target `int` type (`Ctx.getTargetInfo().getIntWidth()`), detecting overflow
(`EvaluateKnownConstIntCheckOverflow`, `sadd_ov`, `smul_ov`, `ssub_ov`).
We model `int` as 32 bits wide and track values as mathematical integers with
explicit range checks. -/

def intWidth : Nat := 32

def intMin : Int := -(2 ^ (intWidth - 1))

def intMax : Int := 2 ^ (intWidth - 1) - 1

/-- Whether an integer value is representable in the target `int` type. -/
def inIntRange (n : Int) : Bool := intMin ≤ n && n ≤ intMax

/-! ## Operator codes

`BinaryOperator::Opcode` and `UnaryOperatorKind` are C enums; comparisons in
`Compare` use the numeric enum values, which we reproduce with `code`. -/

inductive BinOpc where
  | mul
  | div
  | rem
  | add
  | sub
  deriving DecidableEq, Repr, Fintype

/-- Numeric value of the clang `BinaryOperator::Opcode` enumerator. -/
def BinOpc.code : BinOpc → Nat
  | .mul => 2
  | .div => 3
  | .rem => 4
  | .add => 5
  | .sub => 6

/-- `BinaryOperatorNode::IsOpCommutativeAndAssociative`: only `+` and `*`. -/
def BinOpc.commAssoc : BinOpc → Bool
  | .add => true
  | .mul => true
  | _ => false

inductive UnOpc where
  | deref
  | plus
  | minus
  | lnot
  deriving DecidableEq, Repr, Fintype

/-- Numeric value of the clang `UnaryOperatorKind` enumerator. -/
def UnOpc.code : UnOpc → Nat
  | .deref => 5
  | .plus => 6
  | .minus => 7
  | .lnot => 9

/-! ## Source expressions

A shallow embedding of the clang `Expr` shapes that `PreorderAST::Create`
distinguishes: variable references, integer literals, binary and unary
operators, member accesses, array subscripts and implicit casts.  Variables,
fields and cast kinds are identified by numbers. -/

inductive Expr where
  | var (v : Nat)
  | intLit (n : Int)
  | bin (op : BinOpc) (lhs rhs : Expr)
  | un (op : UnOpc) (e : Expr)
  | member (base : Expr) (field : Nat) (isArrow : Bool)
  | subscript (base idx : Expr)
  | implicitCast (ck : Nat) (e : Expr)
  deriving DecidableEq, Repr

/-- Model of the host's integer-constant-expression evaluator
(`isIntegerConstantExpr` / `EvaluateKnownConstIntCheckOverflow`): returns the
value for integer constant expressions whose evaluation stays within the
representable range of `int`, and `none` otherwise. -/
def evalConst? : Expr → Option Int
  | .intLit n => if inIntRange n then some n else none
  | .un .plus e => evalConst? e
  | .un .minus e =>
      match evalConst? e with
      | some v => if inIntRange (-v) then some (-v) else none
      | none => none
  | .bin .add l r =>
      match evalConst? l, evalConst? r with
      | some a, some b => if inIntRange (a + b) then some (a + b) else none
      | _, _ => none
  | .bin .sub l r =>
      match evalConst? l, evalConst? r with
      | some a, some b => if inIntRange (a - b) then some (a - b) else none
      | _, _ => none
  | .bin .mul l r =>
      match evalConst? l, evalConst? r with
      | some a, some b => if inIntRange (a * b) then some (a * b) else none
      | _, _ => none
  | .implicitCast _ e => evalConst? e
  | _ => none

/-! ## Canonical tree nodes

The tagged-variant node type of the preorder AST (`PreorderAST.h`): a
`BinaryOperatorNode` holds an operator and an ordered list of children, the
other node kinds hold one child (resp. base).  Parent back-references of the
C++ implementation are not needed in the functional embedding. -/

inductive Node where
  | binaryOperatorNode (opc : BinOpc) (children : List Node)
  | unaryOperatorNode (opc : UnOpc) (child : Node)
  | memberNode (field : Nat) (isArrow : Bool) (base : Node)
  | implicitCastNode (ck : Nat) (child : Node)
  | leafExprNode (e : Expr)
  deriving Repr

/-- Numeric tag of the `NodeKind` enumerator, in declaration order; used by
`Node::CompareKinds`. -/
def Node.kindTag : Node → Nat
  | .binaryOperatorNode .. => 0
  | .unaryOperatorNode .. => 1
  | .memberNode .. => 2
  | .implicitCastNode .. => 3
  | .leafExprNode .. => 4

/-! ## Comparators

`lcmp` is the three-way comparison on a linear order; `arrowCmp` compares the
member arrow flags exactly as `MemberNode::Compare` does (an arrow member
sorts before a dot member). -/

def lcmp {α : Type _} [LinearOrder α] (a b : α) : Ordering :=
  if a < b then .lt else if b < a then .gt else .eq

def arrowCmp : Bool → Bool → Ordering
  | true, false => .lt
  | false, true => .gt
  | _, _ => .eq

/-- Numeric tag of the expression class, used by `Expr.ecmp` across classes. -/
def Expr.ctorTag : Expr → Nat
  | .var _ => 0
  | .intLit _ => 1
  | .bin .. => 2
  | .un .. => 3
  | .member .. => 4
  | .subscript .. => 5
  | .implicitCast .. => 6

/-- Model of `Lexicographic::CompareExpr` (CanonBounds): a total, deterministic
lexicographic order on source expressions, comparing first by expression class
and then by contents, children in order. -/
def Expr.ecmp : Expr → Expr → Ordering
  | .var v1, .var v2 => lcmp v1 v2
  | .intLit n1, .intLit n2 => lcmp n1 n2
  | .bin o1 l1 r1, .bin o2 l2 r2 =>
      (lcmp o1.code o2.code).then ((Expr.ecmp l1 l2).then (Expr.ecmp r1 r2))
  | .un o1 e1, .un o2 e2 => (lcmp o1.code o2.code).then (Expr.ecmp e1 e2)
  | .member b1 f1 a1, .member b2 f2 a2 =>
      (arrowCmp a1 a2).then ((lcmp f1 f2).then (Expr.ecmp b1 b2))
  | .subscript b1 i1, .subscript b2 i2 => (Expr.ecmp b1 b2).then (Expr.ecmp i1 i2)
  | .implicitCast k1 e1, .implicitCast k2 e2 => (lcmp k1 k2).then (Expr.ecmp e1 e2)
  | a, b => lcmp a.ctorTag b.ctorTag

mutual

/-- `Node::Compare`: lexicographic comparison of canonical trees — first by
node kind (`CompareKinds`), then kind-specific contents (operator code, arrow
flag and field, cast kind, leaf expression), then children in list order. -/
def Node.compare : Node → Node → Ordering
  | .binaryOperatorNode o1 cs1, .binaryOperatorNode o2 cs2 =>
      (lcmp o1.code o2.code).then
        ((lcmp cs1.length cs2.length).then (Node.compareList cs1 cs2))
  | .unaryOperatorNode o1 c1, .unaryOperatorNode o2 c2 =>
      (lcmp o1.code o2.code).then (Node.compare c1 c2)
  | .memberNode f1 a1 b1, .memberNode f2 a2 b2 =>
      (arrowCmp a1 a2).then ((lcmp f1 f2).then (Node.compare b1 b2))
  | .implicitCastNode k1 c1, .implicitCastNode k2 c2 =>
      (lcmp k1 k2).then (Node.compare c1 c2)
  | .leafExprNode e1, .leafExprNode e2 => e1.ecmp e2
  | a, b => lcmp a.kindTag b.kindTag

/-- Child-by-child comparison of two equally long child lists (the loop in
`BinaryOperatorNode::Compare`), extended lexicographically to unequal lengths. -/
def Node.compareList : List Node → List Node → Ordering
  | [], [] => .eq
  | [], _ :: _ => .lt
  | _ :: _, [] => .gt
  | a :: as, b :: bs => (Node.compare a b).then (Node.compareList as bs)

end

/-! ## Lawfulness of the comparators -/

theorem lcmp_eq_iff {α : Type _} [LinearOrder α] {a b : α} : lcmp a b = .eq ↔ a = b := by
  unfold lcmp
  split_ifs with h1 h2
  · simp [ne_of_lt h1]
  · simp [ne_of_gt h2]
  · simp [le_antisymm (not_lt.mp h2) (not_lt.mp h1)]

theorem lcmp_self {α : Type _} [LinearOrder α] (a : α) : lcmp a a = .eq :=
  lcmp_eq_iff.mpr rfl

theorem lcmp_swap {α : Type _} [LinearOrder α] (a b : α) : (lcmp a b).swap = lcmp b a := by
  unfold lcmp
  rcases lt_trichotomy a b with h | h | h
  · rw [if_pos h, if_neg (asymm h), if_pos h]; rfl
  · subst h; rw [if_neg (lt_irrefl a), if_neg (lt_irrefl a)]; rfl
  · rw [if_neg (asymm h), if_pos h, if_pos h]; rfl

theorem lcmp_lt_iff {α : Type _} [LinearOrder α] {a b : α} : lcmp a b = .lt ↔ a < b := by
  unfold lcmp
  split_ifs with h1 h2 <;> simp [h1]

theorem lcmp_lt_trans {α : Type _} [LinearOrder α] {a b c : α}
    (h1 : lcmp a b = .lt) (h2 : lcmp b c = .lt) : lcmp a c = .lt :=
  lcmp_lt_iff.mpr (lt_trans (lcmp_lt_iff.mp h1) (lcmp_lt_iff.mp h2))

theorem arrowCmp_eq_iff : ∀ a b : Bool, arrowCmp a b = .eq ↔ a = b := by decide

theorem arrowCmp_swap : ∀ a b : Bool, (arrowCmp a b).swap = arrowCmp b a := by decide

theorem arrowCmp_lt_trans : ∀ a b c : Bool,
    arrowCmp a b = .lt → arrowCmp b c = .lt → arrowCmp a c = .lt := by decide

theorem BinOpc.code_inj : ∀ o1 o2 : BinOpc, o1.code = o2.code ↔ o1 = o2 := by decide

theorem UnOpc.ucode_inj : ∀ o1 o2 : UnOpc, o1.code = o2.code ↔ o1 = o2 := by decide

/-- Transitivity of a lexicographic combination `o.then p` of comparisons,
given transitivity of the head and, when heads agree, of the tail. -/
theorem then_chain_lt {o1 o2 o3 p1 p2 p3 : Ordering}
    (ho : o1 = .lt → o2 = .lt → o3 = .lt)
    (h12 : o1 = .eq → o2 = o3)
    (h21 : o2 = .eq → o1 = o3)
    (hp : o1 = .eq → o2 = .eq → p1 = .lt → p2 = .lt → p3 = .lt)
    (hl1 : o1.then p1 = .lt) (hl2 : o2.then p2 = .lt) : o3.then p3 = .lt := by
  rcases Ordering.then_eq_lt.mp hl1 with h | ⟨he1, hp1⟩
  · rcases Ordering.then_eq_lt.mp hl2 with h' | ⟨he2, hp2⟩
    · exact Ordering.then_eq_lt.mpr (.inl (ho h h'))
    · exact Ordering.then_eq_lt.mpr (.inl ((h21 he2) ▸ h))
  · rcases Ordering.then_eq_lt.mp hl2 with h' | ⟨he2, hp2⟩
    · exact Ordering.then_eq_lt.mpr (.inl ((h12 he1) ▸ h'))
    · exact Ordering.then_eq_lt.mpr (.inr ⟨(h12 he1) ▸ he2, hp he1 he2 hp1 hp2⟩)

theorem Expr.ecmp_eq_iff : ∀ a b : Expr, a.ecmp b = .eq ↔ a = b := by
  intro a
  induction a with
  | var v => intro b; cases b <;> simp [ecmp, ctorTag, lcmp_eq_iff]
  | intLit n => intro b; cases b <;> simp [ecmp, ctorTag, lcmp_eq_iff]
  | bin o l r ihl ihr =>
    intro b; cases b <;>
      simp [ecmp, ctorTag, Ordering.then_eq_eq, lcmp_eq_iff, BinOpc.code_inj,
        ihl, ihr, and_assoc]
  | un o e ihe =>
    intro b; cases b <;>
      simp [ecmp, ctorTag, Ordering.then_eq_eq, lcmp_eq_iff, UnOpc.ucode_inj, ihe]
  | member bs f ar ihb =>
    intro b; cases b <;>
      simp [ecmp, ctorTag, Ordering.then_eq_eq, lcmp_eq_iff, arrowCmp_eq_iff,
        ihb, and_assoc, and_left_comm, and_comm]
  | subscript bs idx ihb ihi =>
    intro b; cases b <;>
      simp [ecmp, ctorTag, Ordering.then_eq_eq, lcmp_eq_iff, ihb, ihi]
  | implicitCast k e ihe =>
    intro b; cases b <;>
      simp [ecmp, ctorTag, Ordering.then_eq_eq, lcmp_eq_iff, ihe]

theorem Expr.ecmp_swap : ∀ a b : Expr, (a.ecmp b).swap = b.ecmp a := by
  intro a
  induction a with
  | var v => intro b; cases b <;> simp [ecmp, ctorTag, Ordering.swap_then, lcmp_swap]
  | intLit n => intro b; cases b <;> simp [ecmp, ctorTag, Ordering.swap_then, lcmp_swap]
  | bin o l r ihl ihr =>
    intro b; cases b <;>
      simp [ecmp, ctorTag, Ordering.swap_then, lcmp_swap, ihl, ihr]
  | un o e ihe =>
    intro b; cases b <;> simp [ecmp, ctorTag, Ordering.swap_then, lcmp_swap, ihe]
  | member bs f ar ihb =>
    intro b; cases b <;>
      simp [ecmp, ctorTag, Ordering.swap_then, lcmp_swap, arrowCmp_swap, ihb]
  | subscript bs idx ihb ihi =>
    intro b; cases b <;>
      simp [ecmp, ctorTag, Ordering.swap_then, lcmp_swap, ihb, ihi]
  | implicitCast k e ihe =>
    intro b; cases b <;> simp [ecmp, ctorTag, Ordering.swap_then, lcmp_swap, ihe]

theorem Expr.ecmp_lt_tag_le : ∀ a b : Expr, a.ecmp b = .lt → a.ctorTag ≤ b.ctorTag := by
  intro a b
  cases a <;> cases b <;> simp [ecmp, ctorTag, lcmp]

theorem Expr.ecmp_of_tag_lt : ∀ a b : Expr, a.ctorTag < b.ctorTag → a.ecmp b = .lt := by
  intro a b
  cases a <;> cases b <;> simp [ecmp, ctorTag, lcmp]

theorem Expr.ecmp_lt_trans : ∀ a b c : Expr,
    a.ecmp b = .lt → b.ecmp c = .lt → a.ecmp c = .lt := by
  intro a
  induction a with
  | var v =>
    intro b c h1 h2
    have t1 := Expr.ecmp_lt_tag_le _ _ h1
    have t2 := Expr.ecmp_lt_tag_le _ _ h2
    rcases Nat.lt_or_ge (Expr.var v).ctorTag c.ctorTag with ht | ht
    · exact Expr.ecmp_of_tag_lt _ _ ht
    · cases b <;> cases c <;> simp [ctorTag] at t1 t2 ht ⊢ <;>
        simp only [ecmp] at h1 h2 ⊢
      exact lcmp_lt_trans h1 h2
  | intLit n =>
    intro b c h1 h2
    have t1 := Expr.ecmp_lt_tag_le _ _ h1
    have t2 := Expr.ecmp_lt_tag_le _ _ h2
    rcases Nat.lt_or_ge (Expr.intLit n).ctorTag c.ctorTag with ht | ht
    · exact Expr.ecmp_of_tag_lt _ _ ht
    · cases b <;> cases c <;> simp [ctorTag] at t1 t2 ht ⊢ <;>
        simp only [ecmp] at h1 h2 ⊢
      exact lcmp_lt_trans h1 h2
  | bin o l r ihl ihr =>
    intro b c h1 h2
    have t1 := Expr.ecmp_lt_tag_le _ _ h1
    have t2 := Expr.ecmp_lt_tag_le _ _ h2
    rcases Nat.lt_or_ge (Expr.bin o l r).ctorTag c.ctorTag with ht | ht
    · exact Expr.ecmp_of_tag_lt _ _ ht
    · cases b <;> cases c <;> simp [ctorTag] at t1 t2 ht ⊢ <;>
        simp only [ecmp] at h1 h2 ⊢
      next o2 l2 r2 o3 l3 r3 =>
        refine then_chain_lt lcmp_lt_trans ?_ ?_ ?_ h1 h2
        · intro h; rw [← (lcmp_eq_iff.mp h : o.code = o2.code)]
        · intro h; rw [(lcmp_eq_iff.mp h : o2.code = o3.code)]
        · intro _ _ hq1 hq2
          refine then_chain_lt (ihl l2 l3) ?_ ?_ ?_ hq1 hq2
          · intro h; rw [← (Expr.ecmp_eq_iff l l2).mp h]
          · intro h; rw [(Expr.ecmp_eq_iff l2 l3).mp h]
          · intro _ _ hr1 hr2; exact ihr r2 r3 hr1 hr2
  | un o e ihe =>
    intro b c h1 h2
    have t1 := Expr.ecmp_lt_tag_le _ _ h1
    have t2 := Expr.ecmp_lt_tag_le _ _ h2
    rcases Nat.lt_or_ge (Expr.un o e).ctorTag c.ctorTag with ht | ht
    · exact Expr.ecmp_of_tag_lt _ _ ht
    · cases b <;> cases c <;> simp [ctorTag] at t1 t2 ht ⊢ <;>
        simp only [ecmp] at h1 h2 ⊢
      next o2 e2 o3 e3 =>
        refine then_chain_lt lcmp_lt_trans ?_ ?_ ?_ h1 h2
        · intro h; rw [← (lcmp_eq_iff.mp h : o.code = o2.code)]
        · intro h; rw [(lcmp_eq_iff.mp h : o2.code = o3.code)]
        · intro _ _ hq1 hq2; exact ihe e2 e3 hq1 hq2
  | member bs f ar ihb =>
    intro b c h1 h2
    have t1 := Expr.ecmp_lt_tag_le _ _ h1
    have t2 := Expr.ecmp_lt_tag_le _ _ h2
    rcases Nat.lt_or_ge (Expr.member bs f ar).ctorTag c.ctorTag with ht | ht
    · exact Expr.ecmp_of_tag_lt _ _ ht
    · cases b <;> cases c <;> simp [ctorTag] at t1 t2 ht ⊢ <;>
        simp only [ecmp] at h1 h2 ⊢
      next b2 f2 a2 b3 f3 a3 =>
        refine then_chain_lt (arrowCmp_lt_trans ar a2 a3) ?_ ?_ ?_ h1 h2
        · intro h; rw [← (arrowCmp_eq_iff ar a2).mp h]
        · intro h; rw [(arrowCmp_eq_iff a2 a3).mp h]
        · intro _ _ hq1 hq2
          refine then_chain_lt lcmp_lt_trans ?_ ?_ ?_ hq1 hq2
          · intro h; rw [← (lcmp_eq_iff.mp h : f = f2)]
          · intro h; rw [(lcmp_eq_iff.mp h : f2 = f3)]
          · intro _ _ hr1 hr2; exact ihb b2 b3 hr1 hr2
  | subscript bs idx ihb ihi =>
    intro b c h1 h2
    have t1 := Expr.ecmp_lt_tag_le _ _ h1
    have t2 := Expr.ecmp_lt_tag_le _ _ h2
    rcases Nat.lt_or_ge (Expr.subscript bs idx).ctorTag c.ctorTag with ht | ht
    · exact Expr.ecmp_of_tag_lt _ _ ht
    · cases b <;> cases c <;> simp [ctorTag] at t1 t2 ht ⊢ <;>
        simp only [ecmp] at h1 h2 ⊢
      next b2 i2 b3 i3 =>
        refine then_chain_lt (ihb b2 b3) ?_ ?_ ?_ h1 h2
        · intro h; rw [← (Expr.ecmp_eq_iff bs b2).mp h]
        · intro h; rw [(Expr.ecmp_eq_iff b2 b3).mp h]
        · intro _ _ hq1 hq2; exact ihi i2 i3 hq1 hq2
  | implicitCast k e ihe =>
    intro b c h1 h2
    have t1 := Expr.ecmp_lt_tag_le _ _ h1
    have t2 := Expr.ecmp_lt_tag_le _ _ h2
    rcases Nat.lt_or_ge (Expr.implicitCast k e).ctorTag c.ctorTag with ht | ht
    · exact Expr.ecmp_of_tag_lt _ _ ht
    · cases b <;> cases c <;> simp [ctorTag] at t1 t2 ht ⊢ <;>
        simp only [ecmp] at h1 h2 ⊢
      next k2 e2 k3 e3 =>
        refine then_chain_lt lcmp_lt_trans ?_ ?_ ?_ h1 h2
        · intro h; rw [← (lcmp_eq_iff.mp h : k = k2)]
        · intro h; rw [(lcmp_eq_iff.mp h : k2 = k3)]
        · intro _ _ hq1 hq2; exact ihe e2 e3 hq1 hq2

/-! ## Induction over canonical trees -/

mutual

/-- Structural induction over `Node`, with membership hypotheses for the
children of a `BinaryOperatorNode`. -/
def nodeInd {P : Node → Prop}
    (hb : ∀ o cs, (∀ c ∈ cs, P c) → P (.binaryOperatorNode o cs))
    (hu : ∀ o c, P c → P (.unaryOperatorNode o c))
    (hm : ∀ f ar b, P b → P (.memberNode f ar b))
    (hi : ∀ k c, P c → P (.implicitCastNode k c))
    (hl : ∀ e, P (.leafExprNode e)) : ∀ n, P n
  | .binaryOperatorNode o cs => hb o cs (nodeIndList hb hu hm hi hl cs)
  | .unaryOperatorNode o c => hu o c (nodeInd hb hu hm hi hl c)
  | .memberNode f ar b => hm f ar b (nodeInd hb hu hm hi hl b)
  | .implicitCastNode k c => hi k c (nodeInd hb hu hm hi hl c)
  | .leafExprNode e => hl e

/-- Auxiliary list form of `nodeInd`. -/
def nodeIndList {P : Node → Prop}
    (hb : ∀ o cs, (∀ c ∈ cs, P c) → P (.binaryOperatorNode o cs))
    (hu : ∀ o c, P c → P (.unaryOperatorNode o c))
    (hm : ∀ f ar b, P b → P (.memberNode f ar b))
    (hi : ∀ k c, P c → P (.implicitCastNode k c))
    (hl : ∀ e, P (.leafExprNode e)) : ∀ cs : List Node, ∀ c ∈ cs, P c
  | [] => fun c hc => absurd hc (List.not_mem_nil c)
  | c :: cs => fun x hx => by
      rcases List.mem_cons.mp hx with h | h
      · rw [h]; exact nodeInd hb hu hm hi hl c
      · exact nodeIndList hb hu hm hi hl cs x h

end

/-! ## Lawfulness of `Node.compare` -/

theorem Node.compareList_eq_iff {cs : List Node}
    (ih : ∀ c ∈ cs, ∀ b, c.compare b = .eq ↔ c = b) :
    ∀ ds, Node.compareList cs ds = .eq ↔ cs = ds := by
  induction cs with
  | nil => intro ds; cases ds <;> simp [Node.compareList]
  | cons a as iha =>
    intro ds
    cases ds with
    | nil => simp [Node.compareList]
    | cons b bs =>
      simp [Node.compareList, Ordering.then_eq_eq,
        ih a (List.mem_cons_self a as) b,
        iha (fun c hc => ih c (List.mem_cons_of_mem a hc)) bs]

theorem Node.compare_eq_iff : ∀ a b : Node, Node.compare a b = .eq ↔ a = b := by
  intro a
  refine nodeInd (P := fun a => ∀ b : Node, Node.compare a b = .eq ↔ a = b) ?_ ?_ ?_ ?_ ?_ a
  · intro o cs ih b
    cases b with
    | binaryOperatorNode o2 cs2 =>
      simp only [Node.compare, Ordering.then_eq_eq, lcmp_eq_iff, BinOpc.code_inj,
        Node.compareList_eq_iff ih, Node.binaryOperatorNode.injEq]
      constructor
      · rintro ⟨h1, _, h3⟩; exact ⟨h1, h3⟩
      · rintro ⟨h1, h2⟩; subst h1; subst h2; exact ⟨rfl, rfl, rfl⟩
    | unaryOperatorNode o2 c2 => simp [Node.compare, kindTag, lcmp_eq_iff]
    | memberNode f2 a2 b2 => simp [Node.compare, kindTag, lcmp_eq_iff]
    | implicitCastNode k2 c2 => simp [Node.compare, kindTag, lcmp_eq_iff]
    | leafExprNode e2 => simp [Node.compare, kindTag, lcmp_eq_iff]
  · intro o c ih b
    cases b <;> simp [Node.compare, kindTag, lcmp_eq_iff, Ordering.then_eq_eq,
      UnOpc.ucode_inj, ih]
  · intro f ar bs ih b
    cases b <;> simp [Node.compare, kindTag, lcmp_eq_iff, Ordering.then_eq_eq,
      arrowCmp_eq_iff, ih, and_assoc, and_left_comm, and_comm]
  · intro k c ih b
    cases b <;> simp [Node.compare, kindTag, lcmp_eq_iff, Ordering.then_eq_eq, ih]
  · intro e b
    cases b <;> simp [Node.compare, kindTag, lcmp_eq_iff, Expr.ecmp_eq_iff]

theorem Node.compare_self (a : Node) : Node.compare a a = .eq :=
  (Node.compare_eq_iff a a).mpr rfl

instance : DecidableEq Node := fun a b =>
  decidable_of_iff (Node.compare a b = .eq) (Node.compare_eq_iff a b)

theorem Node.compareList_swap {cs : List Node}
    (ih : ∀ c ∈ cs, ∀ b, (c.compare b).swap = b.compare c) :
    ∀ ds, (Node.compareList cs ds).swap = Node.compareList ds cs := by
  induction cs with
  | nil => intro ds; cases ds <;> simp [Node.compareList, Ordering.swap]
  | cons a as iha =>
    intro ds
    cases ds with
    | nil => simp [Node.compareList, Ordering.swap]
    | cons b bs =>
      simp [Node.compareList, Ordering.swap_then,
        ih a (List.mem_cons_self a as) b,
        iha (fun c hc => ih c (List.mem_cons_of_mem a hc)) bs]

theorem Node.compare_swap : ∀ a b : Node, (Node.compare a b).swap = Node.compare b a := by
  intro a
  refine nodeInd (P := fun a => ∀ b : Node, (Node.compare a b).swap = Node.compare b a)
    ?_ ?_ ?_ ?_ ?_ a
  · intro o cs ih b
    cases b <;> simp [Node.compare, kindTag, Ordering.swap_then, lcmp_swap,
      Node.compareList_swap ih]
  · intro o c ih b
    cases b <;> simp [Node.compare, kindTag, Ordering.swap_then, lcmp_swap, ih]
  · intro f ar bs ih b
    cases b <;> simp [Node.compare, kindTag, Ordering.swap_then, lcmp_swap,
      arrowCmp_swap, ih]
  · intro k c ih b
    cases b <;> simp [Node.compare, kindTag, Ordering.swap_then, lcmp_swap, ih]
  · intro e b
    cases b <;> simp [Node.compare, kindTag, Ordering.swap_then, lcmp_swap,
      Expr.ecmp_swap]

theorem Node.compare_lt_tag_le : ∀ a b : Node, Node.compare a b = .lt → a.kindTag ≤ b.kindTag := by
  intro a b
  cases a <;> cases b <;> simp [Node.compare, kindTag, lcmp]

theorem Node.compare_of_tag_lt : ∀ a b : Node, a.kindTag < b.kindTag → Node.compare a b = .lt := by
  intro a b
  cases a <;> cases b <;> simp [Node.compare, kindTag, lcmp]

theorem Node.compareList_lt_trans {cs : List Node}
    (ih : ∀ c ∈ cs, ∀ b d, c.compare b = .lt → b.compare d = .lt → c.compare d = .lt) :
    ∀ ds es, Node.compareList cs ds = .lt → Node.compareList ds es = .lt →
      Node.compareList cs es = .lt := by
  induction cs with
  | nil =>
    intro ds es h1 h2
    cases ds with
    | nil => exact absurd h1 (by simp [Node.compareList])
    | cons b bs =>
      cases es with
      | nil => exact absurd h2 (by simp [Node.compareList])
      | cons c cs2 => simp [Node.compareList]
  | cons a as iha =>
    intro ds es h1 h2
    cases ds with
    | nil => exact absurd h1 (by simp [Node.compareList])
    | cons b bs =>
      cases es with
      | nil => exact absurd h2 (by simp [Node.compareList])
      | cons c cs2 =>
        simp only [Node.compareList] at h1 h2 ⊢
        refine then_chain_lt (ih a (List.mem_cons_self a as) b c) ?_ ?_ ?_ h1 h2
        · intro h; rw [← (Node.compare_eq_iff a b).mp h]
        · intro h; rw [(Node.compare_eq_iff b c).mp h]
        · intro _ _ hq1 hq2
          exact iha (fun x hx => ih x (List.mem_cons_of_mem a hx)) bs cs2 hq1 hq2

theorem Node.compare_lt_trans : ∀ a b c : Node,
    Node.compare a b = .lt → Node.compare b c = .lt → Node.compare a c = .lt := by
  intro a
  refine nodeInd (P := fun a => ∀ b c : Node,
    Node.compare a b = .lt → Node.compare b c = .lt → Node.compare a c = .lt) ?_ ?_ ?_ ?_ ?_ a
  · intro o cs ih b c h1 h2
    have t1 := Node.compare_lt_tag_le _ _ h1
    have t2 := Node.compare_lt_tag_le _ _ h2
    rcases Nat.lt_or_ge (Node.binaryOperatorNode o cs).kindTag c.kindTag with ht | ht
    · exact Node.compare_of_tag_lt _ _ ht
    · cases b <;> cases c <;> simp [kindTag] at t1 t2 ht ⊢ <;>
        simp only [Node.compare] at h1 h2 ⊢
      next o2 cs2 o3 cs3 =>
        refine then_chain_lt lcmp_lt_trans ?_ ?_ ?_ h1 h2
        · intro h; rw [← (lcmp_eq_iff.mp h : o.code = o2.code)]
        · intro h; rw [(lcmp_eq_iff.mp h : o2.code = o3.code)]
        · intro _ _ hq1 hq2
          refine then_chain_lt lcmp_lt_trans ?_ ?_ ?_ hq1 hq2
          · intro h; rw [← (lcmp_eq_iff.mp h : cs.length = cs2.length)]
          · intro h; rw [(lcmp_eq_iff.mp h : cs2.length = cs3.length)]
          · intro _ _ hr1 hr2
            exact Node.compareList_lt_trans ih cs2 cs3 hr1 hr2
  · intro o e ihe b c h1 h2
    have t1 := Node.compare_lt_tag_le _ _ h1
    have t2 := Node.compare_lt_tag_le _ _ h2
    rcases Nat.lt_or_ge (Node.unaryOperatorNode o e).kindTag c.kindTag with ht | ht
    · exact Node.compare_of_tag_lt _ _ ht
    · cases b <;> cases c <;> simp [kindTag] at t1 t2 ht ⊢ <;>
        simp only [Node.compare] at h1 h2 ⊢
      next o2 e2 o3 e3 =>
        refine then_chain_lt lcmp_lt_trans ?_ ?_ ?_ h1 h2
        · intro h; rw [← (lcmp_eq_iff.mp h : o.code = o2.code)]
        · intro h; rw [(lcmp_eq_iff.mp h : o2.code = o3.code)]
        · intro _ _ hq1 hq2; exact ihe e2 e3 hq1 hq2
  · intro f ar bs ihb b c h1 h2
    have t1 := Node.compare_lt_tag_le _ _ h1
    have t2 := Node.compare_lt_tag_le _ _ h2
    rcases Nat.lt_or_ge (Node.memberNode f ar bs).kindTag c.kindTag with ht | ht
    · exact Node.compare_of_tag_lt _ _ ht
    · cases b <;> cases c <;> simp [kindTag] at t1 t2 ht ⊢ <;>
        simp only [Node.compare] at h1 h2 ⊢
      next f2 a2 b2 f3 a3 b3 =>
        refine then_chain_lt (arrowCmp_lt_trans ar a2 a3) ?_ ?_ ?_ h1 h2
        · intro h; rw [← (arrowCmp_eq_iff ar a2).mp h]
        · intro h; rw [(arrowCmp_eq_iff a2 a3).mp h]
        · intro _ _ hq1 hq2
          refine then_chain_lt lcmp_lt_trans ?_ ?_ ?_ hq1 hq2
          · intro h; rw [← (lcmp_eq_iff.mp h : f = f2)]
          · intro h; rw [(lcmp_eq_iff.mp h : f2 = f3)]
          · intro _ _ hr1 hr2; exact ihb b2 b3 hr1 hr2
  · intro k e ihe b c h1 h2
    have t1 := Node.compare_lt_tag_le _ _ h1
    have t2 := Node.compare_lt_tag_le _ _ h2
    rcases Nat.lt_or_ge (Node.implicitCastNode k e).kindTag c.kindTag with ht | ht
    · exact Node.compare_of_tag_lt _ _ ht
    · cases b <;> cases c <;> simp [kindTag] at t1 t2 ht ⊢ <;>
        simp only [Node.compare] at h1 h2 ⊢
      next k2 e2 k3 e3 =>
        refine then_chain_lt lcmp_lt_trans ?_ ?_ ?_ h1 h2
        · intro h; rw [← (lcmp_eq_iff.mp h : k = k2)]
        · intro h; rw [(lcmp_eq_iff.mp h : k2 = k3)]
        · intro _ _ hq1 hq2; exact ihe e2 e3 hq1 hq2
  · intro e b c h1 h2
    have t1 := Node.compare_lt_tag_le _ _ h1
    have t2 := Node.compare_lt_tag_le _ _ h2
    rcases Nat.lt_or_ge (Node.leafExprNode e).kindTag c.kindTag with ht | ht
    · exact Node.compare_of_tag_lt _ _ ht
    · cases b <;> cases c <;> simp [kindTag] at t1 t2 ht ⊢ <;>
        simp only [Node.compare] at h1 h2 ⊢
      exact Expr.ecmp_lt_trans _ _ _ h1 h2

/-! ## Tree construction (`PreorderAST::Create` / `AddZero`)

`create e` is the node built for a source expression `e` under a non-null
parent; the tree root is always built by `AddZero`, so the root of the
preorder AST of `e` is `+ [0, create e]` (`createRoot`). -/

/-- Size measure for `create`'s recursion (a subscript is rewritten into a
dereference of a fresh addition, so it weighs one extra unit). -/
def Expr.esize : Expr → Nat
  | .var _ => 1
  | .intLit _ => 1
  | .bin _ l r => 1 + l.esize + r.esize
  | .un _ e => 1 + e.esize
  | .member b _ _ => 1 + b.esize
  | .subscript b i => 2 + b.esize + i.esize
  | .implicitCast _ e => 1 + e.esize

theorem Expr.esize_pos (e : Expr) : 1 ≤ e.esize := by
  cases e <;> simp [esize] <;> omega

/-- The zero integer literal synthesized by `PreorderAST::AddZero`. -/
def zeroLit : Expr := .intLit 0

/-- Wrap an already-created node `n` as `AddZero` does: a `+` node whose
children are the zero literal and `n`. -/
def mkAddZero (n : Node) : Node :=
  .binaryOperatorNode .add [.leafExprNode zeroLit, n]

/-- `PreorderAST::Create` for an expression with a non-null parent.
A subtraction whose right operand is an integer constant becomes an addition
of the negated constant unless negation overflows; member accesses through a
pointer get an `a + 0` base; dereferences and subscripts become a dereference
of `e + 0` (resp. `e1 + e2 + 0`); constant unary `+`/`-` become leaves;
everything unsupported is an opaque leaf. -/
def Expr.create : Expr → Node
  | .bin op l r =>
      if op = .sub ∧ (evalConst? r).isSome then
        match evalConst? (.un .minus r) with
        | some _ => .binaryOperatorNode .add [l.create, (Expr.un .minus r).create]
        | none => .binaryOperatorNode .sub [l.create, r.create]
      else .binaryOperatorNode op [l.create, r.create]
  | .member (.un .deref b) f false => .memberNode f true (mkAddZero b.create)
  | .member (.subscript b i) f false =>
      .memberNode f true (mkAddZero (Expr.bin .add b i).create)
  | .member base f ar =>
      if ar then .memberNode f true (mkAddZero base.create)
      else .memberNode f false base.create
  | .un .deref e => .unaryOperatorNode .deref (mkAddZero e.create)
  | .un .plus e =>
      if (evalConst? (.un .plus e)).isSome then .leafExprNode (.un .plus e)
      else .unaryOperatorNode .plus (Expr.create e)
  | .un .minus e =>
      if (evalConst? (.un .minus e)).isSome then .leafExprNode (.un .minus e)
      else .unaryOperatorNode .minus (Expr.create e)
  | .un op e => .unaryOperatorNode op (Expr.create e)
  | .subscript b i => .unaryOperatorNode .deref (mkAddZero (Expr.bin .add b i).create)
  | .implicitCast k e => .implicitCastNode k (Expr.create e)
  | .var v => .leafExprNode (.var v)
  | .intLit n => .leafExprNode (.intLit n)
  termination_by e => e.esize
  decreasing_by
    all_goals simp [Expr.esize]
    all_goals try omega
    all_goals (have h9 := Expr.esize_pos l; omega)

/-- The root of the preorder AST of `e`: `Create(E, nullptr)` always calls
`AddZero`, so the root is `+ [0, create e]`. -/
def createRoot (e : Expr) : Node := mkAddZero e.create

/-! ## The `Coalesce` pass -/

/-- `BinaryOperatorNode::CanCoalesce` for a child `c` of a parent with
operator `op`: both operators commutative-and-associative, and either the
operators agree or the child has exactly one child. -/
def canMerge (op : BinOpc) : Node → Bool
  | .binaryOperatorNode o gcs => o.commAssoc && op.commAssoc && (o == op || gcs.length == 1)
  | _ => false

/-- Children of a binary-operator node (only applied to such nodes). -/
def childrenOf : Node → List Node
  | .binaryOperatorNode _ cs => cs
  | n => [n]

mutual

/-- `Node::Coalesce`: children are coalesced bottom-up; a child that can merge
into the current node is removed from the child list and its own children are
appended at the end (the splice in `BinaryOperatorNode::Coalesce`).  The
boolean is the `Changed` flag. -/
def Node.coalesce : Node → Node × Bool
  | .binaryOperatorNode op cs =>
      let r := Node.coalesceList cs
      let kept := r.1.filter (fun c => !canMerge op c)
      let spliced := (r.1.filter (fun c => canMerge op c)).flatMap childrenOf
      (.binaryOperatorNode op (kept ++ spliced), r.2 || r.1.any (canMerge op))
  | .unaryOperatorNode o c =>
      let r := Node.coalesce c
      (.unaryOperatorNode o r.1, r.2)
  | .memberNode f ar b =>
      let r := Node.coalesce b
      (.memberNode f ar r.1, r.2)
  | .implicitCastNode k c =>
      let r := Node.coalesce c
      (.implicitCastNode k r.1, r.2)
  | .leafExprNode e => (.leafExprNode e, false)

/-- Pointwise coalescing of a child list. -/
def Node.coalesceList : List Node → List Node × Bool
  | [] => ([], false)
  | c :: cs =>
      let r1 := Node.coalesce c
      let r2 := Node.coalesceList cs
      (r1.1 :: r2.1, r1.2 || r2.2)

end

/-! ## The `Sort` pass -/

/-- The ordering relation used to sort children: `llvm::sort` with the strict
comparator `N1->Compare(N2) == Result::LessThan` sorts into any order where no
later child compares less than an earlier one; as a reflexive total relation
this is `compare a b ≠ gt`. -/
def nle (a b : Node) : Prop := Node.compare a b ≠ .gt

instance : DecidableRel nle := fun a b => by unfold nle; infer_instance

theorem nle_total (a b : Node) : nle a b ∨ nle b a := by
  unfold nle
  rcases h : Node.compare a b with _ | _ | _
  · left; simp [h]
  · left; simp [h]
  · right; rw [← Node.compare_swap a b, h]; simp [Ordering.swap]

theorem Node.compare_gt_iff {a b : Node} :
    Node.compare a b = .gt ↔ Node.compare b a = .lt := by
  rw [← Node.compare_swap a b]
  cases Node.compare a b <;> simp [Ordering.swap]

theorem nle_trans {a b c : Node} (h1 : nle a b) (h2 : nle b c) : nle a c := by
  unfold nle at h1 h2 ⊢
  intro hac
  rcases hab : Node.compare a b with _ | _ | _
  · rcases hbc : Node.compare b c with _ | _ | _
    · have := Node.compare_lt_trans a b c hab hbc
      rw [this] at hac; cases hac
    · rw [(Node.compare_eq_iff b c).mp hbc] at hab
      rw [hab] at hac; cases hac
    · exact absurd hbc h2
  · rw [(Node.compare_eq_iff a b).mp hab] at hac
    exact absurd hac h2
  · exact absurd hab h1

theorem nle_antisymm {a b : Node} (h1 : nle a b) (h2 : nle b a) : a = b := by
  unfold nle at h1 h2
  rcases h : Node.compare a b with _ | _ | _
  · exact absurd (by rw [← Node.compare_swap a b, h]; rfl) h2
  · exact (Node.compare_eq_iff a b).mp h
  · exact absurd h h1

mutual

/-- `Node::Sort`: sort children recursively, then reorder the children of a
commutative-and-associative node by the comparator's total order. -/
def Node.sortNode : Node → Node
  | .binaryOperatorNode op cs =>
      let cs2 := Node.sortList cs
      .binaryOperatorNode op (if op.commAssoc then cs2.insertionSort nle else cs2)
  | .unaryOperatorNode o c => .unaryOperatorNode o (Node.sortNode c)
  | .memberNode f ar b => .memberNode f ar (Node.sortNode b)
  | .implicitCastNode k c => .implicitCastNode k (Node.sortNode c)
  | .leafExprNode e => .leafExprNode e

/-- Pointwise sorting of a child list. -/
def Node.sortList : List Node → List Node
  | [] => []
  | c :: cs => Node.sortNode c :: Node.sortList cs

end

/-! ## The `ConstantFold` pass -/

/-- Result of constant folding one node: the rewritten node, the `Changed`
flag, and whether the node folded itself down to a single child so that the
caller must coalesce it into the parent (`Children.size() == 1 &&
CanCoalesce()` at the end of `BinaryOperatorNode::ConstantFold`). -/
structure FoldResult where
  node : Node
  changed : Bool
  selfSplice : Bool
  deriving Repr

/-- Result of processing a child list: the children kept in place, the
singleton constants appended at the end by self-coalescing children, and the
accumulated `Changed` flag. -/
structure FoldListResult where
  kept : List Node
  appended : List Node
  changed : Bool
  deriving Repr

/-- The values of the integer-constant leaf children, in order
(`isIntegerConstantExpr` on each `LeafExprNode`). -/
def constLeafVals (cs : List Node) : List Int :=
  cs.filterMap fun c =>
    match c with
    | .leafExprNode e => evalConst? e
    | _ => none

/-- Index of the first integer-constant leaf child (`ConstStartIdx`). -/
def constStartIdx (cs : List Node) : Nat :=
  cs.findIdx fun c =>
    match c with
    | .leafExprNode e => (evalConst? e).isSome
    | _ => false

/-- Fold constants left to right with overflow detection (`sadd_ov` /
`smul_ov`); `none` on overflow. -/
def foldVals (op : BinOpc) (acc : Int) : List Int → Option Int
  | [] => some acc
  | v :: vs =>
      let x := if op == .mul then acc * v else acc + v
      if inIntRange x then foldVals op x vs else none

/-- Fold a nonempty constant list (the first constant seeds `ConstFoldedVal`). -/
def foldValsAll (op : BinOpc) : List Int → Option Int
  | [] => none
  | v :: vs => foldVals op v vs

/-- The constant-combining step at one `BinaryOperatorNode` (the second half
of `BinaryOperatorNode::ConstantFold`): count the integer-constant leaf
children (only when the operator is commutative-and-associative), and when at
least two exist fold them with overflow detection, delete that many children
positionally starting at the first constant's index, and append the folded
constant leaf.  Returns the new child list, the `Changed` flag, and whether
the node is left with a single child (so the caller must coalesce it). -/
def foldConsts (op : BinOpc) (cs1 : List Node) : Option (List Node × Bool × Bool) :=
  let vals := if op.commAssoc then constLeafVals cs1 else []
  if vals.length ≤ 1 then some (cs1, false, false)
  else
    match foldValsAll op vals with
    | none => none
    | some v =>
        let cs2 := (cs1.take (constStartIdx cs1) ++
          cs1.drop (constStartIdx cs1 + vals.length)) ++ [.leafExprNode (.intLit v)]
        some (cs2, true, decide (cs2.length = 1) && op.commAssoc)

mutual

/-- `Node::ConstantFold`: recursively fold non-leaf children (splicing
children that folded down to a single constant), then combine the
integer-constant leaf children of a commutative-and-associative node into a
single constant leaf appended at the end, deleting the folded constants
positionally from the first constant's index.  `none` models the `Error`
state on arithmetic overflow. -/
def Node.constantFold : Node → Option FoldResult
  | .binaryOperatorNode op cs =>
      match Node.constantFoldList op cs with
      | none => none
      | some r =>
          match foldConsts op (r.kept ++ r.appended) with
          | none => none
          | some f2 => some ⟨.binaryOperatorNode op f2.1, r.changed || f2.2.1, f2.2.2⟩
  | .unaryOperatorNode o c =>
      match Node.constantFold c with
      | none => none
      | some r => some ⟨.unaryOperatorNode o r.node, r.changed, false⟩
  | .memberNode f ar b =>
      match Node.constantFold b with
      | none => none
      | some r => some ⟨.memberNode f ar r.node, r.changed, false⟩
  | .implicitCastNode k c =>
      match Node.constantFold c with
      | none => none
      | some r => some ⟨.implicitCastNode k r.node, r.changed, false⟩
  | .leafExprNode e => some ⟨.leafExprNode e, false, false⟩

/-- Process the children of a node with operator `op` left to right: leaf
children stay in place, non-leaf children are folded recursively, and a child
that folded itself to a single constant is removed and its constant appended
at the end (when the parent operator permits coalescing). -/
def Node.constantFoldList (op : BinOpc) : List Node → Option FoldListResult
  | [] => some ⟨[], [], false⟩
  | .leafExprNode e :: cs =>
      match Node.constantFoldList op cs with
      | none => none
      | some r => some ⟨.leafExprNode e :: r.kept, r.appended, r.changed⟩
  | c :: cs =>
      match Node.constantFold c with
      | none => none
      | some rc =>
          match Node.constantFoldList op cs with
          | none => none
          | some r =>
              if rc.selfSplice && op.commAssoc then
                some ⟨r.kept, childrenOf rc.node ++ r.appended, true⟩
              else
                some ⟨rc.node :: r.kept, r.appended, rc.changed || r.changed⟩

end

/-! ## The `Normalize` loop -/

mutual

/-- Number of nodes in a tree (termination measure for the rewrite loop). -/
def Node.count : Node → Nat
  | .binaryOperatorNode _ cs => 1 + Node.countList cs
  | .unaryOperatorNode _ c => 1 + c.count
  | .memberNode _ _ b => 1 + b.count
  | .implicitCastNode _ c => 1 + c.count
  | .leafExprNode _ => 1

/-- Total node count of a list of trees. -/
def Node.countList : List Node → Nat
  | [] => 0
  | c :: cs => c.count + Node.countList cs

end

/-- One iteration of the `PreorderAST::Normalize` loop: `Coalesce`, then
`Sort`, then `ConstantFold`; `none` is the `Error` state. -/
def normStep (n : Node) : Option (Node × Bool) :=
  let rc := n.coalesce
  let n2 := rc.1.sortNode
  match n2.constantFold with
  | none => none
  | some rf => some (rf.node, rc.2 || rf.changed)

/-- The normalize loop, driven by explicit fuel: repeat `normStep` while the
`Changed` flag is set.  `normLoopFuel_ge` below shows any fuel above the node
count gives the loop's true result, so the fuel is not a semantic bound. -/
def normLoopFuel : Nat → Node → Option Node
  | 0, _ => none
  | f + 1, n =>
      match normStep n with
      | none => none
      | some (n2, ch) => if ch then normLoopFuel f n2 else some n2

/-- `PreorderAST::Normalize` on a tree. -/
def normalizeNode (n : Node) : Option Node := normLoopFuel (n.count + 1) n

/-- Build and normalize the canonical tree of an expression: the composition
performed by the `PreorderAST` constructor followed by `Normalize`. -/
def normalizeAST (e : Expr) : Option Node := normalizeNode (createRoot e)

/-! ## `GetDerefOffset` -/

/-- The loop of `PreorderAST::GetDerefOffset` over the two child lists, with
the accumulated offset (caller-initialized to zero). -/
def derefOffsetGo (o1 : BinOpc) : List Node → List Node → Int → Option Int
  | [], [], off => some off
  | c1 :: r1, c2 :: r2, off =>
      if Node.compare c1 c2 = .eq then derefOffsetGo o1 r1 r2 off
      else
        match c1, c2 with
        | .leafExprNode e1, .leafExprNode e2 =>
            (match evalConst? e1, evalConst? e2 with
             | some u, some d =>
                 if o1 ≠ .add then none
                 else if off ≠ 0 then none
                 else if inIntRange (d - u) then derefOffsetGo o1 r1 r2 (d - u)
                 else none
             | _, _ => none)
        | _, _ => none
  | _, _, _ => none

/-- `PreorderAST::GetDerefOffset`: extract the provable integer offset between
a declared-upper-bound tree and a dereference tree.  Both roots must be
`BinaryOperatorNode`s with the same opcode and child count; children must
compare equal except for integer-constant leaves, whose difference
(dereference minus bound, with `ssub_ov` overflow detection) is the offset. -/
def getDerefOffset (upper deref : Node) : Option Int :=
  match upper, deref with
  | .binaryOperatorNode o1 cs1, .binaryOperatorNode o2 cs2 =>
      if o1 ≠ o2 then none
      else if cs1.length ≠ cs2.length then none
      else derefOffsetGo o1 cs1 cs2 0
  | _, _ => none

/-! ## QueueSet (ExprUtils.h)

A FIFO queue backed by a membership set, used as the work list of the
dataflow analysis.  `queue` lists the queued elements front first; `memSet`
is the backing `llvm::DenseSet`. -/

structure QueueSet (T : Type _) [DecidableEq T] where
  queue : List T
  memSet : Finset T

namespace QueueSet

variable {T : Type _} [DecidableEq T]

/-- `QueueSet::next`: the front of the queue. -/
def next (qs : QueueSet T) : Option T := qs.queue.head?

/-- `QueueSet::remove(B)`: on a non-empty queue, pop the front element and
erase `B` from the set; on an empty queue, do nothing. -/
def remove (qs : QueueSet T) (B : T) : QueueSet T :=
  if qs.queue.isEmpty then qs else ⟨qs.queue.tail, qs.memSet.erase B⟩

/-- `QueueSet::append(B)`: if `B` is not in the set, push it at the back of
the queue and insert it into the set. -/
def append (qs : QueueSet T) (B : T) : QueueSet T :=
  if B ∈ qs.memSet then qs else ⟨qs.queue ++ [B], insert B qs.memSet⟩

/-- `QueueSet::empty`. -/
def isEmptyQ (qs : QueueSet T) : Bool := qs.queue.isEmpty

/-- The queue/set coincidence invariant: the queue has no duplicates and
lists exactly the members of the set. -/
def Good (qs : QueueSet T) : Prop :=
  qs.queue.Nodup ∧ ∀ x, x ∈ qs.queue ↔ x ∈ qs.memSet

/-- States reachable from the empty `QueueSet` when `remove` is only ever
invoked with the current front element (the discipline the dataflow driver
follows via `remove(next())`). -/
inductive Reachable : QueueSet T → Prop
  | init : Reachable ⟨[], ∅⟩
  | append (B : T) {s : QueueSet T} : Reachable s → Reachable (s.append B)
  | removeFront {s : QueueSet T} {B : T} : Reachable s → s.next = some B →
      Reachable (s.remove B)

end QueueSet

/-! ## The bounds-widening dataflow fixpoint engine

Modelled from the spec: the bodies of `BoundsWideningAnalysis::WidenBounds`,
`ComputeInSet` and `ComputeOutSet` are not part of the analyzed sources (only
their declarations in BoundsWideningAnalysis.h are), so the engine is built
from the specification: In of a block is the intersection of the pruned Out
sets of its predecessors (the entry block's In is seeded from the parameter
declarations), Out is `(In − Kill) ∪ Gen`, the work queue is seeded with all
blocks in descending block order, and a block is re-enqueued whenever its Out
set changes.  `reAddSelf` selects whether the changed block itself is
re-enqueued (the spec's literal wording) or its successors. -/

structure DataflowProblem (n : Nat) (F : Type _) [DecidableEq F] [Fintype F] where
  preds : Fin n → List (Fin n)
  gen : Fin n → Finset F
  kill : Fin n → Finset F
  prune : Fin n → Fin n → F → Bool
  entry : Fin n
  entryIn : Finset F

namespace DataflowProblem

variable {n : Nat} {F : Type _} [DecidableEq F] [Fintype F]

/-- The transfer function of a block: `Out = (In − Kill) ∪ Gen`. -/
def outF (P : DataflowProblem n F) (b : Fin n) (inSet : Finset F) : Finset F :=
  (inSet \ P.kill b) ∪ P.gen b

/-- The In set of a block: the intersection of the pruned Out sets of its
predecessors; the entry block's In is seeded from the parameters. -/
def meetIn (P : DataflowProblem n F) (out : Fin n → Finset F) (b : Fin n) : Finset F :=
  if b = P.entry then P.entryIn
  else (P.preds b).foldr (fun p acc => acc ∩ (out p).filter (fun f => P.prune p b f)) Finset.univ

/-- Successors of a block, derived from the predecessor lists. -/
def succs (P : DataflowProblem n F) (b : Fin n) : List (Fin n) :=
  (List.finRange n).filter (fun s => b ∈ P.preds s)

end DataflowProblem

/-- The state of the fixpoint engine: the per-block In and Out sets and the
work list. -/
structure DFState (n : Nat) (F : Type _) [DecidableEq F] [Fintype F] where
  inS : Fin n → Finset F
  out : Fin n → Finset F
  wl : QueueSet (Fin n)

namespace DFState

variable {n : Nat} {F : Type _} [DecidableEq F] [Fintype F]

/-- One step of the engine: take the front block `b` off the work list,
recompute `In[b]` from the current predecessor Outs and `Out[b]` from the
transfer function, and if `Out[b]` changed re-enqueue either `b` itself
(`reAddSelf = true`, the spec's literal re-enqueue policy) or the successors
of `b`. -/
def dfStep (P : DataflowProblem n F) (reAddSelf : Bool) (σ : DFState n F) : DFState n F :=
  match σ.wl.next with
  | none => σ
  | some b =>
      let newIn := P.meetIn σ.out b
      let newOut := P.outF b newIn
      let wl1 := σ.wl.remove b
      let wl2 :=
        if newOut = σ.out b then wl1
        else if reAddSelf then wl1.append b
        else (P.succs b).foldl (fun q s => q.append s) wl1
      ⟨Function.update σ.inS b newIn, Function.update σ.out b newOut, wl2⟩

/-- The driver loop: step while the work list is nonempty, with explicit
fuel; `loop_terminates` shows the measure-sized fuel reaches the empty
work list. -/
def dfLoopFuel (P : DataflowProblem n F) (reAddSelf : Bool) :
    Nat → DFState n F → DFState n F
  | 0, σ => σ
  | f + 1, σ =>
      if σ.wl.queue = [] then σ else dfLoopFuel P reAddSelf f (dfStep P reAddSelf σ)

/-- The initial state: all Outs at Top (the superset of all bounds facts),
Ins empty, and the work list seeded with all blocks in descending block
order (block numbers decrease from entry to exit, and blocks are processed
by descending block number). -/
def dfInit (n : Nat) (F : Type _) [DecidableEq F] [Fintype F] : DFState n F :=
  ⟨fun _ => ∅, fun _ => Finset.univ,
   ((List.finRange n).reverse).foldl (fun q b => q.append b) ⟨[], ∅⟩⟩

/-- Termination measure: total size of the Out sets (they only shrink), with
the queue length as a tiebreaker. -/
def dfMeasure (σ : DFState n F) : Nat :=
  (∑ b : Fin n, (σ.out b).card) * (n + 1) + σ.wl.queue.length

end DFState

/-! ## QueueSet invariants -/

namespace QueueSet

variable {T : Type _} [DecidableEq T]

theorem good_append {qs : QueueSet T} (h : qs.Good) (B : T) : (qs.append B).Good := by
  unfold Good append at *
  by_cases hb : B ∈ qs.memSet
  · simpa [hb] using h
  · simp only [hb, if_neg, ite_false]
    refine ⟨?_, ?_⟩
    · have hBq : B ∉ qs.queue := fun hq => hb ((h.2 B).mp hq)
      simpa [List.nodup_append] using ⟨h.1, hBq⟩
    · intro x
      simp only [List.mem_append, List.mem_singleton, Finset.mem_insert, h.2 x]
      tauto

theorem good_removeFront {qs : QueueSet T} {B : T} (h : qs.Good) (hB : qs.next = some B) :
    (qs.remove B).Good := by
  obtain ⟨t, ht⟩ : ∃ t, qs.queue = B :: t := by
    cases hq : qs.queue with
    | nil => rw [next, hq] at hB; cases hB
    | cons a t =>
      rw [next, hq] at hB
      simp only [List.head?_cons, Option.some.injEq] at hB
      exact ⟨t, congrArg (fun y => y :: t) hB⟩
  have hnodup := h.1
  rw [ht] at hnodup
  have hBt : B ∉ t := (List.nodup_cons.mp hnodup).1
  have hrem : qs.remove B = ⟨t, qs.memSet.erase B⟩ := by
    unfold remove
    rw [ht]
    simp
  rw [Good, hrem]
  refine ⟨(List.nodup_cons.mp hnodup).2, fun x => ?_⟩
  simp only [Finset.mem_erase]
  constructor
  · intro hx
    refine ⟨fun hxB => hBt (hxB ▸ hx), (h.2 x).mp ?_⟩
    rw [ht]; exact List.mem_cons_of_mem B hx
  · rintro ⟨hxB, hxs⟩
    have := (h.2 x).mpr hxs
    rw [ht] at this
    rcases List.mem_cons.mp this with h' | h'
    · exact absurd h' hxB
    · exact h'

theorem good_reachable {qs : QueueSet T} (h : qs.Reachable) : qs.Good := by
  induction h with
  | init => exact ⟨List.nodup_nil, by simp⟩
  | append B _ ih => exact good_append ih B
  | removeFront _ hB ih => exact good_removeFront ih hB

end QueueSet

/-! ## Claim theorems for the work queue and the comparator -/

/-- C8 (counterexample): as stated over *every* sequence of `append` and
`remove` operations the uniqueness claim is false: `remove` pops the front
while erasing its argument from the set, so removing a non-front element
desynchronizes queue and set, after which an `append` duplicates a queued
element.  Appending 10 then 20, removing 20, then appending 20 again leaves
20 twice in the queue. -/
theorem C8_queue_duplicate_counterexample :
    (((((⟨[], ∅⟩ : QueueSet Nat).append 10).append 20).remove 20).append 20).queue =
      [20, 20] ∧
    ¬ (((((⟨[], ∅⟩ : QueueSet Nat).append 10).append 20).remove 20).append 20).queue.Nodup := by
  constructor
  · rfl
  · decide

/-- C8 (amended): when `remove` is only ever invoked with the current front
element — the discipline of the analysis driver — the queue of a reachable
`QueueSet` never holds an element twice, and `append` of an element already
present leaves the `QueueSet` unchanged. -/
theorem C8_queue_unique_pending {T : Type} [DecidableEq T] (s : QueueSet T)
    (h : s.Reachable) :
    s.queue.Nodup ∧ ∀ x ∈ s.queue, s.append x = s := by
  have hg := QueueSet.good_reachable h
  refine ⟨hg.1, fun x hx => ?_⟩
  unfold QueueSet.append
  rw [if_pos ((hg.2 x).mp hx)]

/-- C8 (witness). -/
theorem C8_queue_unique_pending_witness :
    (((⟨[], ∅⟩ : QueueSet Nat).append 7).queue.Nodup ∧
      ∀ x ∈ ((⟨[], ∅⟩ : QueueSet Nat).append 7).queue,
        ((⟨[], ∅⟩ : QueueSet Nat).append 7).append x = (⟨[], ∅⟩ : QueueSet Nat).append 7) :=
  C8_queue_unique_pending _ (QueueSet.Reachable.append 7 QueueSet.Reachable.init)

/-- C10: `QueueSet::remove(B)` on a non-empty queue always pops the front
element — not necessarily `B` — while erasing `B` from the membership set,
and on an empty queue changes nothing; removing a non-front element therefore
desynchronizes the queue from the set (witnessed concretely in the last
conjunct). -/
theorem C10_remove_pops_front :
    (∀ {T : Type} [DecidableEq T] (qs : QueueSet T) (B : T),
      (qs.queue ≠ [] →
        (qs.remove B).queue = qs.queue.tail ∧ (qs.remove B).memSet = qs.memSet.erase B) ∧
      (qs.queue = [] → qs.remove B = qs)) ∧
    ((⟨[1, 2], {1, 2}⟩ : QueueSet Nat).remove 2).queue = [2] ∧
    2 ∉ ((⟨[1, 2], {1, 2}⟩ : QueueSet Nat).remove 2).memSet := by
  refine ⟨?_, by decide, by decide⟩
  intro T _ qs B
  constructor
  · intro hne
    unfold QueueSet.remove
    rw [if_neg (by simpa [List.isEmpty_iff] using hne)]
    exact ⟨rfl, rfl⟩
  · intro he
    unfold QueueSet.remove
    rw [if_pos (by simp [he])]

/-- C10 (witness). -/
theorem C10_remove_pops_front_witness :
    ((⟨[5, 6], {5, 6}⟩ : QueueSet Nat).remove 5).queue = [6] ∧
    ((⟨[5, 6], {5, 6}⟩ : QueueSet Nat).remove 5).memSet = ({5, 6} : Finset Nat).erase 5 :=
  (C10_remove_pops_front.1 (⟨[5, 6], {5, 6}⟩ : QueueSet Nat) 5).1 (by decide)

/-- C9: `Node::Compare` is a total deterministic order on canonical trees:
every pair yields exactly one of `lt`/`eq`/`gt`, the order is antisymmetric
(`Compare(A,B) = LessThan` iff `Compare(B,A) = GreaterThan`) and transitive,
equal comparisons are transitive as well, and across different node kinds the
comparison is decided lexicographically by the node-kind tag. -/
theorem C9_compare_total_order :
    (∀ A B : Node, Node.compare A B = .lt ∨ Node.compare A B = .eq ∨
      Node.compare A B = .gt) ∧
    (∀ A B : Node, Node.compare A B = .lt ↔ Node.compare B A = .gt) ∧
    (∀ A B C : Node, Node.compare A B = .lt → Node.compare B C = .lt →
      Node.compare A C = .lt) ∧
    (∀ A B C : Node, Node.compare A B = .eq → Node.compare B C = .eq →
      Node.compare A C = .eq) ∧
    (∀ A B : Node, A.kindTag ≠ B.kindTag →
      Node.compare A B = lcmp A.kindTag B.kindTag) := by
  refine ⟨?_, ?_, ?_, ?_, ?_⟩
  · intro A B; rcases Node.compare A B with _ | _ | _ <;> simp
  · intro A B; exact Node.compare_gt_iff.symm
  · exact Node.compare_lt_trans
  · intro A B C h1 h2
    rw [(Node.compare_eq_iff A B).mp h1, (Node.compare_eq_iff B C).mp h2]
    exact Node.compare_self C
  · intro A B hne
    cases A <;> cases B <;> first
      | (exact absurd rfl hne)
      | rfl

/-- C9 (witness). -/
theorem C9_compare_total_order_witness :
    Node.compare (.leafExprNode (.var 0)) (.leafExprNode (.var 2)) = .lt :=
  C9_compare_total_order.2.2.1 _ (.leafExprNode (.var 1)) _ (by decide) (by decide)

/-! ## Shape preservation of the rewriting passes -/

/-- A tree whose root is a `BinaryOperatorNode` with the additive operator. -/
def AddRoot (n : Node) : Prop := ∃ cs, n = .binaryOperatorNode .add cs

theorem coalesce_binOp (op : BinOpc) (cs : List Node) :
    ∃ cs2, (Node.coalesce (.binaryOperatorNode op cs)).1 = .binaryOperatorNode op cs2 :=
  ⟨_, rfl⟩

theorem sortNode_binOp (op : BinOpc) (cs : List Node) :
    ∃ cs2, Node.sortNode (.binaryOperatorNode op cs) = .binaryOperatorNode op cs2 :=
  ⟨_, rfl⟩

theorem constantFold_binOp (op : BinOpc) (cs : List Node) {r : FoldResult}
    (h : Node.constantFold (.binaryOperatorNode op cs) = some r) :
    ∃ cs2, r.node = .binaryOperatorNode op cs2 := by
  rw [Node.constantFold] at h
  rcases hl : Node.constantFoldList op cs with _ | rl <;> rw [hl] at h <;>
    simp only at h
  · cases h
  · rcases hf : foldConsts op (rl.kept ++ rl.appended) with _ | f2 <;> rw [hf] at h
    · cases h
    · simp only [Option.some.injEq] at h
      exact ⟨f2.1, by rw [← h]⟩

theorem normStep_addRoot {n n2 : Node} {ch : Bool} (h : AddRoot n)
    (hs : normStep n = some (n2, ch)) : AddRoot n2 := by
  obtain ⟨cs, rfl⟩ := h
  rw [normStep] at hs
  obtain ⟨cs1, hc⟩ := coalesce_binOp .add cs
  rw [hc] at hs
  obtain ⟨cs2, hso⟩ := sortNode_binOp .add cs1
  rw [hso] at hs
  rcases hf : Node.constantFold (.binaryOperatorNode .add cs2) with _ | rf
  · rw [hf] at hs; cases hs
  · rw [hf] at hs
    obtain ⟨cs3, hr⟩ := constantFold_binOp .add cs2 hf
    simp only [Option.some.injEq, Prod.mk.injEq] at hs
    exact ⟨cs3, by rw [← hs.1]; exact hr⟩

theorem normLoopFuel_addRoot : ∀ (f : Nat) {n out : Node}, AddRoot n →
    normLoopFuel f n = some out → AddRoot out := by
  intro f
  induction f with
  | zero => intro n out _ h; cases h
  | succ f ih =>
    intro n out hn h
    rw [normLoopFuel] at h
    rcases hs : normStep n with _ | ⟨n2, ch⟩
    · rw [hs] at h; cases h
    · rw [hs] at h
      have h2 := normStep_addRoot hn hs
      cases ch with
      | true => exact ih h2 (by simpa using h)
      | false => simp only [if_neg] at h; exact (Option.some.injEq _ _).mp h ▸ h2

/-- C5: the root of a canonical tree is always a `BinaryOperatorNode` with the
additive operator — every expression is wrapped by `AddZero` into the shape
`0 + e` at the root — and each rewriting pass (`Coalesce`, `Sort`,
`ConstantFold`) maps an operator-`op` root to an operator-`op` root, so the
invariant survives the whole (error-free) normalization. -/
theorem C5_root_is_additive_binop :
    (∀ e : Expr, createRoot e = .binaryOperatorNode .add [.leafExprNode zeroLit, e.create]) ∧
    (∀ (op : BinOpc) (cs : List Node), ∃ cs2,
      (Node.coalesce (.binaryOperatorNode op cs)).1 = .binaryOperatorNode op cs2) ∧
    (∀ (op : BinOpc) (cs : List Node), ∃ cs2,
      Node.sortNode (.binaryOperatorNode op cs) = .binaryOperatorNode op cs2) ∧
    (∀ (op : BinOpc) (cs : List Node) (r : FoldResult),
      Node.constantFold (.binaryOperatorNode op cs) = some r →
      ∃ cs2, r.node = .binaryOperatorNode op cs2) ∧
    (∀ (e : Expr) (out : Node), normalizeAST e = some out → AddRoot out) := by
  refine ⟨fun e => rfl, coalesce_binOp, sortNode_binOp,
    fun op cs r h => constantFold_binOp op cs h, ?_⟩
  intro e out h
  rw [normalizeAST, normalizeNode] at h
  exact normLoopFuel_addRoot _ ⟨_, rfl⟩ h

/-- C5 (witness). -/
theorem C5_root_is_additive_binop_witness :
    AddRoot (.binaryOperatorNode .add
      [.leafExprNode (.var 0), .leafExprNode zeroLit]) := by
  refine C5_root_is_additive_binop.2.2.2.2 (Expr.var 0) _ ?_
  have hc : createRoot (Expr.var 0) =
      .binaryOperatorNode .add [.leafExprNode zeroLit, .leafExprNode (.var 0)] := by
    simp [createRoot, mkAddZero, Expr.create]
  rw [normalizeAST, normalizeNode, hc]
  decide

/-- C6: during tree construction, `a - b` with an integer-constant `b` is
rewritten to `a + (-b)` — the negated constant becoming a leaf — unless the
negation overflows the representable range of `int`, in which case the
subtraction node is kept with its original operator and operands. -/
theorem C6_sub_rewritten_to_add (a b : Expr) (c : Int) (h : evalConst? b = some c) :
    (inIntRange (-c) = true →
      (Expr.bin .sub a b).create =
        .binaryOperatorNode .add [a.create, .leafExprNode (.un .minus b)]) ∧
    (inIntRange (-c) = false →
      (Expr.bin .sub a b).create = .binaryOperatorNode .sub [a.create, b.create]) := by
  have hsome : (evalConst? b).isSome := by rw [h]; rfl
  have hneg : evalConst? (.un .minus b) =
      if inIntRange (-c) then some (-c) else none := by
    rw [evalConst?, h]
  constructor
  · intro hr
    rw [Expr.create]
    rw [if_pos ⟨rfl, hsome⟩, hneg, hr]
    simp only [if_true]
    rw [Expr.create]
    rw [if_pos (by rw [hneg, hr]; rfl)]
  · intro hr
    rw [Expr.create]
    rw [if_pos ⟨rfl, hsome⟩, hneg, hr]
    simp

/-- C6 (witness): `x - 5` is rewritten to `x + (-5)`; `x - INT_MIN` (whose
negation overflows) keeps the subtraction. -/
theorem C6_sub_rewritten_to_add_witness :
    ((Expr.bin .sub (.var 0) (.intLit 5)).create =
      .binaryOperatorNode .add
        [.leafExprNode (.var 0), .leafExprNode (.un .minus (.intLit 5))]) ∧
    ((Expr.bin .sub (.var 0) (.intLit (-2147483648))).create =
      .binaryOperatorNode .sub
        [.leafExprNode (.var 0), .leafExprNode (.intLit (-2147483648))]) := by
  constructor
  · have h := (C6_sub_rewritten_to_add (.var 0) (.intLit 5) 5 (by decide)).1 (by decide)
    rw [h]
    simp [Expr.create]
  · have h := (C6_sub_rewritten_to_add (.var 0) (.intLit (-2147483648)) (-2147483648)
      (by decide)).2 (by decide)
    rw [h]
    simp [Expr.create]

/-! ## Counting lemmas: every changing pass strictly shrinks the tree -/

theorem Node.countList_append (a b : List Node) :
    Node.countList (a ++ b) = Node.countList a + Node.countList b := by
  induction a with
  | nil => simp [Node.countList]
  | cons c cs ih => simp [Node.countList, ih]; omega

theorem Node.count_pos : ∀ n : Node, 1 ≤ n.count := by
  intro n; cases n <;> simp [Node.count] <;> omega

theorem Node.countList_ge_length (l : List Node) : l.length ≤ Node.countList l := by
  induction l with
  | nil => simp [Node.countList]
  | cons c cs ih => have := Node.count_pos c; simp [Node.countList]; omega

theorem Node.countList_eq_sum (l : List Node) :
    Node.countList l = (l.map Node.count).sum := by
  induction l with
  | nil => rfl
  | cons c cs ih => simp [Node.countList, ih]

theorem Node.countList_perm {l1 l2 : List Node} (h : l1.Perm l2) :
    Node.countList l1 = Node.countList l2 := by
  rw [Node.countList_eq_sum, Node.countList_eq_sum]
  exact (h.map Node.count).sum_eq

/-- A mergeable child is a binary-operator node, and its children hold one
node fewer than the child itself. -/
theorem canMerge_count {op : BinOpc} {c : Node} (h : canMerge op c = true) :
    Node.countList (childrenOf c) + 1 = c.count := by
  cases c with
  | binaryOperatorNode o gcs => simp [childrenOf, Node.count]; omega
  | unaryOperatorNode o c => simp [canMerge] at h
  | memberNode f ar b => simp [canMerge] at h
  | implicitCastNode k c => simp [canMerge] at h
  | leafExprNode e => simp [canMerge] at h

/-- Splicing the mergeable children of a list into place never grows the node
count, and shrinks it when at least one child merges. -/
theorem splice_count (op : BinOpc) : ∀ l : List Node,
    Node.countList (l.filter (fun c => !canMerge op c) ++
      (l.filter (fun c => canMerge op c)).flatMap childrenOf) +
      (if l.any (fun c => canMerge op c) then 1 else 0) ≤ Node.countList l := by
  intro l
  induction l with
  | nil => simp [Node.countList]
  | cons c rest ih =>
    have ih' : Node.countList (rest.filter (fun c => !canMerge op c) ++
        (rest.filter (fun c => canMerge op c)).flatMap childrenOf) ≤
        Node.countList rest := by
      split at ih <;> omega
    rcases hm : canMerge op c with _ | _
    · have f1 : List.filter (fun x => !canMerge op x) (c :: rest) =
          c :: rest.filter (fun x => !canMerge op x) := by
        simp [List.filter_cons, hm]
      have f2 : List.filter (fun x => canMerge op x) (c :: rest) =
          rest.filter (fun x => canMerge op x) := by
        simp [List.filter_cons, hm]
      have f3 : (c :: rest).any (fun x => canMerge op x) =
          rest.any (fun x => canMerge op x) := by
        simp [hm]
      rw [f1, f2, f3, List.cons_append]
      simp only [Node.countList]
      rcases ha : rest.any (fun x => canMerge op x) with _ | _ <;>
        rw [ha] at ih <;> simp at ih ⊢ <;> omega
    · have hc := canMerge_count hm
      have f1 : List.filter (fun x => !canMerge op x) (c :: rest) =
          rest.filter (fun x => !canMerge op x) := by
        simp [List.filter_cons, hm]
      have f2 : List.filter (fun x => canMerge op x) (c :: rest) =
          c :: rest.filter (fun x => canMerge op x) := by
        simp [List.filter_cons, hm]
      have f3 : (c :: rest).any (fun x => canMerge op x) = true := by
        simp [hm]
      rw [f1, f2, f3, List.flatMap_cons]
      rw [Node.countList_append] at ih' ⊢
      rw [Node.countList_append]
      simp only [Node.countList]
      simp
      omega

theorem coalesce_un_eq (o : UnOpc) (c : Node) :
    Node.coalesce (.unaryOperatorNode o c) =
      (.unaryOperatorNode o (Node.coalesce c).1, (Node.coalesce c).2) := rfl

theorem coalesce_member_eq (f : Nat) (ar : Bool) (b : Node) :
    Node.coalesce (.memberNode f ar b) =
      (.memberNode f ar (Node.coalesce b).1, (Node.coalesce b).2) := rfl

theorem coalesce_icast_eq (k : Nat) (c : Node) :
    Node.coalesce (.implicitCastNode k c) =
      (.implicitCastNode k (Node.coalesce c).1, (Node.coalesce c).2) := rfl

theorem coalesceList_cons_eq (c : Node) (cs : List Node) :
    Node.coalesceList (c :: cs) =
      ((Node.coalesce c).1 :: (Node.coalesceList cs).1,
        (Node.coalesce c).2 || (Node.coalesceList cs).2) := rfl

/-- List form of `coalesce_count`. -/
theorem coalesceList_count {cs : List Node}
    (ih : ∀ c ∈ cs,
      (Node.coalesce c).1.count + (if (Node.coalesce c).2 then 1 else 0) ≤ c.count) :
    Node.countList (Node.coalesceList cs).1 +
      (if (Node.coalesceList cs).2 then 1 else 0) ≤ Node.countList cs := by
  induction cs with
  | nil => simp [Node.coalesceList, Node.countList]
  | cons c rest ihr =>
    have h1 := ih c (List.mem_cons_self c rest)
    have h2 := ihr (fun x hx => ih x (List.mem_cons_of_mem c hx))
    rw [coalesceList_cons_eq]
    rcases hc : Node.coalesce c with ⟨n1, b1⟩
    rw [hc] at h1
    rcases hcl : Node.coalesceList rest with ⟨l2, b2⟩
    rw [hcl] at h2
    simp only [Node.countList]
    rcases b1 with _ | _ <;> rcases b2 with _ | _ <;> simp at h1 h2 ⊢ <;> omega

/-- Coalescing never grows the node count and strictly shrinks it whenever the
`Changed` flag is set. -/
theorem coalesce_count : ∀ n : Node,
    (Node.coalesce n).1.count + (if (Node.coalesce n).2 then 1 else 0) ≤ n.count := by
  refine nodeInd (P := fun n => (Node.coalesce n).1.count +
    (if (Node.coalesce n).2 then 1 else 0) ≤ n.count) ?_ ?_ ?_ ?_ ?_
  · intro op cs ih
    have hlist := coalesceList_count ih
    have hsp := splice_count op (Node.coalesceList cs).1
    rcases hcl : Node.coalesceList cs with ⟨l1, b1⟩
    rw [hcl] at hlist hsp
    simp only [Node.coalesce, hcl, Node.count, Node.countList_append]
    rw [Node.countList_append] at hsp
    rcases b1 with _ | _ <;>
      rcases ha : l1.any (fun c => canMerge op c) with _ | _ <;>
      rw [ha] at hsp <;> simp at hlist hsp ⊢ <;> omega
  · intro o c ih
    rw [coalesce_un_eq]
    rcases hc : Node.coalesce c with ⟨n1, b1⟩
    rw [hc] at ih
    simp only [Node.count]
    rcases b1 with _ | _ <;> simp at ih ⊢ <;> omega
  · intro f ar b ih
    rw [coalesce_member_eq]
    rcases hc : Node.coalesce b with ⟨n1, b1⟩
    rw [hc] at ih
    simp only [Node.count]
    rcases b1 with _ | _ <;> simp at ih ⊢ <;> omega
  · intro k c ih
    rw [coalesce_icast_eq]
    rcases hc : Node.coalesce c with ⟨n1, b1⟩
    rw [hc] at ih
    simp only [Node.count]
    rcases b1 with _ | _ <;> simp at ih ⊢ <;> omega
  · intro e
    simp [Node.coalesce, Node.count]

/-! ## Sorting preserves the node count -/

theorem sortNode_bin_eq (op : BinOpc) (cs : List Node) :
    Node.sortNode (.binaryOperatorNode op cs) =
      .binaryOperatorNode op
        (if op.commAssoc then (Node.sortList cs).insertionSort nle else Node.sortList cs) :=
  rfl

theorem sortList_cons_eq (c : Node) (cs : List Node) :
    Node.sortList (c :: cs) = Node.sortNode c :: Node.sortList cs := rfl

theorem sortList_count {cs : List Node}
    (ih : ∀ c ∈ cs, (Node.sortNode c).count = c.count) :
    Node.countList (Node.sortList cs) = Node.countList cs := by
  induction cs with
  | nil => rfl
  | cons c rest ihr =>
    rw [sortList_cons_eq]
    simp only [Node.countList]
    rw [ih c (List.mem_cons_self c rest),
      ihr (fun x hx => ih x (List.mem_cons_of_mem c hx))]

theorem sortNode_count : ∀ n : Node, (Node.sortNode n).count = n.count := by
  refine nodeInd (P := fun n => (Node.sortNode n).count = n.count) ?_ ?_ ?_ ?_ ?_
  · intro op cs ih
    rw [sortNode_bin_eq]
    simp only [Node.count]
    have hs := sortList_count ih
    split
    · rw [Node.countList_perm (List.perm_insertionSort nle (Node.sortList cs)), hs]
    · rw [hs]
  · intro o c ih; simp only [Node.sortNode, Node.count, ih]
  · intro f ar b ih; simp only [Node.sortNode, Node.count, ih]
  · intro k c ih; simp only [Node.sortNode, Node.count, ih]
  · intro e; rfl

/-! ## Inversion and counting for `ConstantFold` -/

def Node.isLeaf : Node → Bool
  | .leafExprNode _ => true
  | _ => false

theorem constantFold_bin_inv {op : BinOpc} {cs : List Node} {r : FoldResult}
    (h : Node.constantFold (.binaryOperatorNode op cs) = some r) :
    ∃ rl f2, Node.constantFoldList op cs = some rl ∧
      foldConsts op (rl.kept ++ rl.appended) = some f2 ∧
      r = ⟨.binaryOperatorNode op f2.1, rl.changed || f2.2.1, f2.2.2⟩ := by
  rw [Node.constantFold] at h
  rcases hl : Node.constantFoldList op cs with _ | rl <;> rw [hl] at h <;> simp only at h
  · cases h
  · rcases hf : foldConsts op (rl.kept ++ rl.appended) with _ | f2 <;> rw [hf] at h
    · cases h
    · exact ⟨rl, f2, rfl, hf, ((Option.some.injEq _ _).mp h).symm⟩

theorem constantFold_un_inv {o : UnOpc} {c : Node} {r : FoldResult}
    (h : Node.constantFold (.unaryOperatorNode o c) = some r) :
    ∃ rc, Node.constantFold c = some rc ∧
      r = ⟨.unaryOperatorNode o rc.node, rc.changed, false⟩ := by
  rw [Node.constantFold] at h
  rcases hc : Node.constantFold c with _ | rc <;> rw [hc] at h
  · cases h
  · exact ⟨rc, rfl, ((Option.some.injEq _ _).mp h).symm⟩

theorem constantFold_member_inv {f : Nat} {ar : Bool} {b : Node} {r : FoldResult}
    (h : Node.constantFold (.memberNode f ar b) = some r) :
    ∃ rc, Node.constantFold b = some rc ∧
      r = ⟨.memberNode f ar rc.node, rc.changed, false⟩ := by
  rw [Node.constantFold] at h
  rcases hc : Node.constantFold b with _ | rc <;> rw [hc] at h
  · cases h
  · exact ⟨rc, rfl, ((Option.some.injEq _ _).mp h).symm⟩

theorem constantFold_icast_inv {k : Nat} {c : Node} {r : FoldResult}
    (h : Node.constantFold (.implicitCastNode k c) = some r) :
    ∃ rc, Node.constantFold c = some rc ∧
      r = ⟨.implicitCastNode k rc.node, rc.changed, false⟩ := by
  rw [Node.constantFold] at h
  rcases hc : Node.constantFold c with _ | rc <;> rw [hc] at h
  · cases h
  · exact ⟨rc, rfl, ((Option.some.injEq _ _).mp h).symm⟩

theorem constantFold_leaf_eq (e : Expr) :
    Node.constantFold (.leafExprNode e) = some ⟨.leafExprNode e, false, false⟩ := rfl

theorem constantFoldList_nil_eq (op : BinOpc) :
    Node.constantFoldList op [] = some ⟨[], [], false⟩ := rfl

theorem constantFoldList_cons_leaf_inv {op : BinOpc} {e : Expr} {cs : List Node}
    {r : FoldListResult} (h : Node.constantFoldList op (.leafExprNode e :: cs) = some r) :
    ∃ r2, Node.constantFoldList op cs = some r2 ∧
      r = ⟨.leafExprNode e :: r2.kept, r2.appended, r2.changed⟩ := by
  rw [Node.constantFoldList] at h
  rcases hl : Node.constantFoldList op cs with _ | r2 <;> rw [hl] at h
  · cases h
  · exact ⟨r2, rfl, ((Option.some.injEq _ _).mp h).symm⟩

theorem constantFoldList_cons_inv {op : BinOpc} {c : Node} {cs : List Node}
    {r : FoldListResult} (hnl : Node.isLeaf c = false)
    (h : Node.constantFoldList op (c :: cs) = some r) :
    ∃ rc r2, Node.constantFold c = some rc ∧ Node.constantFoldList op cs = some r2 ∧
      (((rc.selfSplice && op.commAssoc) = true ∧
          r = ⟨r2.kept, childrenOf rc.node ++ r2.appended, true⟩) ∨
        ((rc.selfSplice && op.commAssoc) = false ∧
          r = ⟨rc.node :: r2.kept, r2.appended, rc.changed || r2.changed⟩)) := by
  cases c with
  | leafExprNode e => simp [Node.isLeaf] at hnl
  | binaryOperatorNode o gcs =>
    rw [Node.constantFoldList] at h
    rcases hc : Node.constantFold (.binaryOperatorNode o gcs) with _ | rc <;> rw [hc] at h <;>
      simp only at h
    · cases h
    · rcases hl : Node.constantFoldList op cs with _ | r2 <;> rw [hl] at h <;>
        simp only at h
      · cases h
      · refine ⟨rc, r2, rfl, rfl, ?_⟩
        split at h
        · exact .inl ⟨‹_›, ((Option.some.injEq _ _).mp h).symm⟩
        · exact .inr ⟨by simpa using ‹¬ (rc.selfSplice && op.commAssoc) = true›,
            ((Option.some.injEq _ _).mp h).symm⟩
    all_goals intro e he
    all_goals cases he
  | unaryOperatorNode o cc =>
    rw [Node.constantFoldList] at h
    rcases hc : Node.constantFold (.unaryOperatorNode o cc) with _ | rc <;> rw [hc] at h <;>
      simp only at h
    · cases h
    · rcases hl : Node.constantFoldList op cs with _ | r2 <;> rw [hl] at h <;>
        simp only at h
      · cases h
      · refine ⟨rc, r2, rfl, rfl, ?_⟩
        split at h
        · exact .inl ⟨‹_›, ((Option.some.injEq _ _).mp h).symm⟩
        · exact .inr ⟨by simpa using ‹¬ (rc.selfSplice && op.commAssoc) = true›,
            ((Option.some.injEq _ _).mp h).symm⟩
    all_goals intro e he
    all_goals cases he
  | memberNode f ar b =>
    rw [Node.constantFoldList] at h
    rcases hc : Node.constantFold (.memberNode f ar b) with _ | rc <;> rw [hc] at h <;>
      simp only at h
    · cases h
    · rcases hl : Node.constantFoldList op cs with _ | r2 <;> rw [hl] at h <;>
        simp only at h
      · cases h
      · refine ⟨rc, r2, rfl, rfl, ?_⟩
        split at h
        · exact .inl ⟨‹_›, ((Option.some.injEq _ _).mp h).symm⟩
        · exact .inr ⟨by simpa using ‹¬ (rc.selfSplice && op.commAssoc) = true›,
            ((Option.some.injEq _ _).mp h).symm⟩
    all_goals intro e he
    all_goals cases he
  | implicitCastNode k cc =>
    rw [Node.constantFoldList] at h
    rcases hc : Node.constantFold (.implicitCastNode k cc) with _ | rc <;> rw [hc] at h <;>
      simp only at h
    · cases h
    · rcases hl : Node.constantFoldList op cs with _ | r2 <;> rw [hl] at h <;>
        simp only at h
      · cases h
      · refine ⟨rc, r2, rfl, rfl, ?_⟩
        split at h
        · exact .inl ⟨‹_›, ((Option.some.injEq _ _).mp h).symm⟩
        · exact .inr ⟨by simpa using ‹¬ (rc.selfSplice && op.commAssoc) = true›,
            ((Option.some.injEq _ _).mp h).symm⟩
    all_goals intro e he
    all_goals cases he

theorem Node.isLeaf_iff {c : Node} : Node.isLeaf c = true ↔ ∃ e, c = .leafExprNode e := by
  cases c <;> simp [Node.isLeaf]

/-! ## Counting for `ConstantFold` -/

theorem constLeafVals_length_le (l : List Node) :
    (constLeafVals l).length ≤ l.length :=
  List.length_filterMap_le _ _

theorem constStartIdx_vals_le : ∀ l : List Node,
    constStartIdx l + (constLeafVals l).length ≤ l.length := by
  intro l
  induction l with
  | nil => simp [constStartIdx, constLeafVals]
  | cons c rest ih =>
    simp only [constStartIdx, constLeafVals] at ih
    cases c with
    | leafExprNode e =>
      rcases hv : evalConst? e with _ | v
      · simp only [constStartIdx, constLeafVals, List.findIdx_cons, List.filterMap_cons, hv]
        simp only [Option.isSome_none, cond_false, List.length_cons]
        omega
      · simp only [constStartIdx, constLeafVals, List.findIdx_cons, List.filterMap_cons, hv]
        simp only [Option.isSome_some, cond_true, List.length_cons]
        have := constLeafVals_length_le rest
        simp only [constLeafVals] at this
        omega
    | binaryOperatorNode o gcs =>
      simp only [constStartIdx, constLeafVals, List.findIdx_cons, List.filterMap_cons]
      simp only [cond_false, List.length_cons]
      omega
    | unaryOperatorNode o cc =>
      simp only [constStartIdx, constLeafVals, List.findIdx_cons, List.filterMap_cons]
      simp only [cond_false, List.length_cons]
      omega
    | memberNode f ar b =>
      simp only [constStartIdx, constLeafVals, List.findIdx_cons, List.filterMap_cons]
      simp only [cond_false, List.length_cons]
      omega
    | implicitCastNode k cc =>
      simp only [constStartIdx, constLeafVals, List.findIdx_cons, List.filterMap_cons]
      simp only [cond_false, List.length_cons]
      omega

theorem countList_take_drop (i k : Nat) (cs : List Node) (h : i + k ≤ cs.length) :
    Node.countList (cs.take i ++ cs.drop (i + k)) + k ≤ Node.countList cs := by
  have h3 : (cs.drop i).drop k = cs.drop (i + k) := by
    rw [List.drop_drop]
  have e1 : Node.countList cs = Node.countList (cs.take i) + Node.countList (cs.drop i) := by
    conv_lhs => rw [← List.take_append_drop i cs]
    rw [Node.countList_append]
  have e2 : Node.countList (cs.drop i) =
      Node.countList ((cs.drop i).take k) + Node.countList (cs.drop (i + k)) := by
    conv_lhs => rw [← List.take_append_drop k (cs.drop i)]
    rw [Node.countList_append, h3]
  have hlen : ((cs.drop i).take k).length = k := by
    rw [List.length_take, List.length_drop]
    omega
  have hmid : k ≤ Node.countList ((cs.drop i).take k) := by
    calc k = ((cs.drop i).take k).length := hlen.symm
    _ ≤ _ := Node.countList_ge_length _
  rw [Node.countList_append]
  omega

theorem foldConsts_unchanged {op : BinOpc} {cs1 cs2 : List Node} {s : Bool}
    (h : foldConsts op cs1 = some (cs2, false, s)) : cs2 = cs1 ∧ s = false := by
  rw [foldConsts] at h
  rcases hca : op.commAssoc with _ | _ <;> rw [hca] at h
  · simp only [Bool.false_eq_true, if_false, List.length_nil] at h
    rw [if_pos (by omega)] at h
    simp only [Option.some.injEq, Prod.mk.injEq] at h
    exact ⟨h.1.symm, h.2.2.symm⟩
  · simp only [if_true] at h
    split at h
    · simp only [Option.some.injEq, Prod.mk.injEq] at h
      exact ⟨h.1.symm, h.2.2.symm⟩
    · rcases hf : foldValsAll op (constLeafVals cs1) with _ | v <;> rw [hf] at h
      · cases h
      · simp only [Option.some.injEq, Prod.mk.injEq] at h
        cases h.2.1

theorem foldConsts_count {op : BinOpc} {cs1 : List Node} {f2 : List Node × Bool × Bool}
    (h : foldConsts op cs1 = some f2) :
    Node.countList f2.1 + (if f2.2.1 then 1 else 0) ≤ Node.countList cs1 := by
  rw [foldConsts] at h
  rcases hca : op.commAssoc with _ | _ <;> rw [hca] at h
  · simp only [Bool.false_eq_true, if_false, List.length_nil] at h
    rw [if_pos (by omega)] at h
    rw [← (Option.some.injEq _ _).mp h]
    simp
  · simp only [if_true] at h
    split at h
    · rw [← (Option.some.injEq _ _).mp h]
      simp
    · next hgt =>
      rcases hf : foldValsAll op (constLeafVals cs1) with _ | v <;> rw [hf] at h
      · cases h
      · rw [← (Option.some.injEq _ _).mp h]
        have hk : 2 ≤ (constLeafVals cs1).length := by omega
        have hle := constStartIdx_vals_le cs1
        have hd := countList_take_drop (constStartIdx cs1) (constLeafVals cs1).length cs1 hle
        rw [Node.countList_append] at hd
        simp only [Node.countList_append, Node.countList, Node.count]
        simp only [if_true]
        omega

theorem foldConsts_selfSplice_len {op : BinOpc} {cs1 : List Node}
    {f2 : List Node × Bool × Bool}
    (h : foldConsts op cs1 = some f2) (hs : f2.2.2 = true) : f2.1.length = 1 := by
  rw [foldConsts] at h
  rcases hca : op.commAssoc with _ | _ <;> rw [hca] at h
  · simp only [Bool.false_eq_true, if_false, List.length_nil] at h
    rw [if_pos (by omega)] at h
    rw [← (Option.some.injEq _ _).mp h] at hs
    cases hs
  · simp only [if_true] at h
    split at h
    · rw [← (Option.some.injEq _ _).mp h] at hs
      cases hs
    · rcases hf : foldValsAll op (constLeafVals cs1) with _ | v <;> rw [hf] at h
      · cases h
      · rw [← (Option.some.injEq _ _).mp h] at hs ⊢
        simpa using hs

/-- The node of a child that must be self-coalesced is a binary operator with
a single child. -/
theorem constantFold_selfSplice_shape : ∀ {n : Node} {r : FoldResult},
    Node.constantFold n = some r → r.selfSplice = true →
    ∃ g, childrenOf r.node = [g] ∧ g.count + 1 = r.node.count := by
  intro n r h hs
  cases n with
  | binaryOperatorNode op cs =>
    obtain ⟨rl, f2, h1, h2, rfl⟩ := constantFold_bin_inv h
    simp only at hs
    have hlen : f2.1.length = 1 := foldConsts_selfSplice_len h2 hs
    rcases f2 with ⟨cs2, ch, sp⟩
    rcases cs2 with _ | ⟨g, rest⟩
    · cases hlen
    · rcases rest with _ | _
      · exact ⟨g, rfl, by simp [childrenOf, Node.count, Node.countList]; omega⟩
      · simp at hlen
  | unaryOperatorNode o c =>
    obtain ⟨rc, _, rfl⟩ := constantFold_un_inv h
    cases hs
  | memberNode f ar b =>
    obtain ⟨rc, _, rfl⟩ := constantFold_member_inv h
    cases hs
  | implicitCastNode k c =>
    obtain ⟨rc, _, rfl⟩ := constantFold_icast_inv h
    cases hs
  | leafExprNode e =>
    rw [constantFold_leaf_eq] at h
    rw [← (Option.some.injEq _ _).mp h] at hs
    cases hs

theorem constantFoldList_count {op : BinOpc} {cs : List Node}
    (ih : ∀ c ∈ cs, ∀ rc, Node.constantFold c = some rc →
      rc.node.count + (if rc.changed then 1 else 0) ≤ c.count) :
    ∀ {r : FoldListResult}, Node.constantFoldList op cs = some r →
      Node.countList r.kept + Node.countList r.appended +
        (if r.changed then 1 else 0) ≤ Node.countList cs := by
  induction cs with
  | nil =>
    intro r h
    rw [constantFoldList_nil_eq] at h
    rw [← (Option.some.injEq _ _).mp h]
    simp [Node.countList]
  | cons c rest ihr =>
    intro r h
    have ihr' : ∀ {r2 : FoldListResult}, Node.constantFoldList op rest = some r2 →
        Node.countList r2.kept + Node.countList r2.appended +
          (if r2.changed then 1 else 0) ≤ Node.countList rest :=
      fun hr => ihr (fun x hx => ih x (List.mem_cons_of_mem c hx)) hr
    rcases hL : Node.isLeaf c with _ | _
    · obtain ⟨rc, r2, hc, hl, hcase⟩ := constantFoldList_cons_inv hL h
      have hb1 := ih c (List.mem_cons_self c rest) rc hc
      have hb2 := ihr' hl
      rcases hcase with ⟨hsp, rfl⟩ | ⟨hsp, rfl⟩
      · have hspl : rc.selfSplice = true := by
          rcases hx : rc.selfSplice with _ | _
          · rw [hx] at hsp; cases hsp
          · rfl
        obtain ⟨g, hg, hgc⟩ := constantFold_selfSplice_shape hc hspl
        have e1 : rc.node.count ≤ c.count := le_trans (Nat.le_add_right _ _) hb1
        have e2 : Node.countList r2.kept + Node.countList r2.appended ≤
            Node.countList rest := le_trans (Nat.le_add_right _ _) hb2
        simp only [Node.countList, Node.countList_append, hg]
        simp
        omega
      · simp only [Node.countList]
        rcases hch : rc.changed with _ | _ <;> rw [hch] at hb1 <;>
          rcases hch2 : r2.changed with _ | _ <;> rw [hch2] at hb2 <;>
          simp at hb1 hb2 ⊢ <;> omega
    · obtain ⟨e, rfl⟩ := Node.isLeaf_iff.mp hL
      obtain ⟨r2, hl, rfl⟩ := constantFoldList_cons_leaf_inv h
      have hb2 := ihr' hl
      simp only [Node.countList, Node.count]
      rcases hch2 : r2.changed with _ | _ <;> rw [hch2] at hb2 <;>
        simp at hb2 ⊢ <;> omega

theorem constantFold_count : ∀ n : Node, ∀ {r : FoldResult},
    Node.constantFold n = some r →
    r.node.count + (if r.changed then 1 else 0) ≤ n.count := by
  refine nodeInd (P := fun n => ∀ {r : FoldResult}, Node.constantFold n = some r →
    r.node.count + (if r.changed then 1 else 0) ≤ n.count) ?_ ?_ ?_ ?_ ?_
  · intro op cs ih r h
    obtain ⟨rl, f2, hl, hf, rfl⟩ := constantFold_bin_inv h
    have h1 := constantFoldList_count (fun c hc rc hrc => ih c hc hrc) hl
    have h2 := foldConsts_count hf
    rw [Node.countList_append] at h2
    simp only [Node.count]
    rcases hc1 : rl.changed with _ | _ <;> rw [hc1] at h1 <;>
      rcases hc2 : f2.2.1 with _ | _ <;> rw [hc2] at h2 <;>
      simp at h1 h2 ⊢ <;> omega
  · intro o c ih r h
    obtain ⟨rc, hc, rfl⟩ := constantFold_un_inv h
    have h1 := ih hc
    simp only [Node.count]
    rcases hch : rc.changed with _ | _ <;> rw [hch] at h1 <;> simp at h1 ⊢ <;> omega
  · intro f ar b ih r h
    obtain ⟨rc, hc, rfl⟩ := constantFold_member_inv h
    have h1 := ih hc
    simp only [Node.count]
    rcases hch : rc.changed with _ | _ <;> rw [hch] at h1 <;> simp at h1 ⊢ <;> omega
  · intro k c ih r h
    obtain ⟨rc, hc, rfl⟩ := constantFold_icast_inv h
    have h1 := ih hc
    simp only [Node.count]
    rcases hch : rc.changed with _ | _ <;> rw [hch] at h1 <;> simp at h1 ⊢ <;> omega
  · intro e r h
    rw [constantFold_leaf_eq] at h
    rw [← (Option.some.injEq _ _).mp h]
    simp [Node.count]


/-! ## The normalize loop: fuel irrelevance -/

theorem normStep_count {n n2 : Node} {ch : Bool} (h : normStep n = some (n2, ch)) :
    n2.count + (if ch then 1 else 0) ≤ n.count := by
  rw [normStep] at h
  have hcc := coalesce_count n
  rcases hc : Node.coalesce n with ⟨m, cb⟩
  rw [hc] at h hcc
  simp only at h hcc
  rcases hf : m.sortNode.constantFold with _ | rf <;> rw [hf] at h
  · cases h
  · simp only [Option.some.injEq, Prod.mk.injEq] at h
    obtain ⟨h1, h2⟩ := h
    have hfc := constantFold_count m.sortNode hf
    have hsc := sortNode_count m
    subst h1
    subst h2
    rcases hb : cb with _ | _ <;> rw [hb] at hcc <;>
      rcases hr : rf.changed with _ | _ <;> rw [hr] at hfc <;>
      simp at hcc hfc ⊢ <;> omega

theorem normLoopFuel_congr : ∀ f g : Nat, ∀ n : Node, n.count < f → n.count < g →
    normLoopFuel f n = normLoopFuel g n := by
  intro f
  induction f with
  | zero => intro g n hf; omega
  | succ f ih =>
    intro g n hf hg
    rcases g with _ | g
    · omega
    rw [normLoopFuel, normLoopFuel]
    rcases hs : normStep n with _ | ⟨n2, ch⟩
    · rfl
    · rcases ch with _ | _
      · simp
      · simp only [eq_self_iff_true, if_true]
        have hc := normStep_count hs
        simp at hc
        exact ih g n2 (by omega) (by omega)

/-- Any fuel above the node count computes `normalizeNode`: the fuel is an
artifact, not a semantic bound. -/
theorem normLoopFuel_ge {f : Nat} {n : Node} (h : n.count < f) :
    normLoopFuel f n = normalizeNode n :=
  normLoopFuel_congr f (n.count + 1) n h (Nat.lt_succ_self _)

/-! ## The bounds-widening fact for a dereference (C1)

Modelled from the spec: the per-statement analysis canonicalizes the declared
upper-bound expression and the dereference expression with `PreorderAST`, asks
`GetDerefOffset` for the provable integer offset of the dereference past the
upper bound, and, when the offset is provable, records in the post-statement
fact set that the upper bound of the pointer is widened to `offset + 1`
elements past the declared bound. -/

def widenedUpperBoundFact (upperE derefE : Expr) : Option Int :=
  match normalizeAST upperE, normalizeAST derefE with
  | some u, some d =>
      match getDerefOffset u d with
      | some off => some (off + 1)
      | none => none
  | _, _ => none



/-- C1: for a pointer `p` declared with bounds `(p, p + i)` and a dereference
`*(i + p)`, the per-statement widening fact after the condition is
`upper_bound(p) = 1`: the canonicalizer reduces both `p + i` and `i + p` to
the same sorted tree `(v0 + v1 + 0)`, `GetDerefOffset` therefore proves the
dereference sits exactly at the declared upper bound (offset `0`), and the
bound is widened by exactly one element.  (`p` is variable `0`, `i` is
variable `1`.) -/
theorem C1_widened_by_one :
    widenedUpperBoundFact (.bin .add (.var 0) (.var 1))
      (.bin .add (.var 1) (.var 0)) = some 1 := by
  have h1 : createRoot (Expr.bin .add (.var 0) (.var 1)) =
      .binaryOperatorNode .add [.leafExprNode zeroLit,
        .binaryOperatorNode .add [.leafExprNode (.var 0), .leafExprNode (.var 1)]] := by
    simp [createRoot, mkAddZero, Expr.create]
  have h2 : createRoot (Expr.bin .add (.var 1) (.var 0)) =
      .binaryOperatorNode .add [.leafExprNode zeroLit,
        .binaryOperatorNode .add [.leafExprNode (.var 1), .leafExprNode (.var 0)]] := by
    simp [createRoot, mkAddZero, Expr.create]
  simp only [widenedUpperBoundFact, normalizeAST, normalizeNode, h1, h2]
  decide



/-! ## Sorting respects permutations of the children -/

instance : IsTotal Node nle := ⟨nle_total⟩

instance : IsTrans Node nle := ⟨fun _ _ _ => nle_trans⟩

instance : IsAntisymm Node nle := ⟨fun _ _ => nle_antisymm⟩

theorem insertionSort_eq_of_perm {l1 l2 : List Node} (h : l1.Perm l2) :
    l1.insertionSort nle = l2.insertionSort nle :=
  List.eq_of_perm_of_sorted
    ((List.perm_insertionSort nle l1).trans
      (h.trans (List.perm_insertionSort nle l2).symm))
    (List.sorted_insertionSort nle l1) (List.sorted_insertionSort nle l2)

theorem sortList_eq_map (l : List Node) : Node.sortList l = l.map Node.sortNode := by
  induction l with
  | nil => rfl
  | cons c cs ih => rw [Node.sortList, ih, List.map_cons]

/-- Sorting a commutative-and-associative node only depends on the multiset of
its children: `llvm::sort` rearranges any permutation into the one canonical
order of the total comparator. -/
theorem sortNode_congr_perm {op : BinOpc} (hop : op.commAssoc = true)
    {l1 l2 : List Node} (h : l1.Perm l2) :
    Node.sortNode (.binaryOperatorNode op l1) =
      Node.sortNode (.binaryOperatorNode op l2) := by
  rw [sortNode_bin_eq, sortNode_bin_eq, hop]
  simp only [if_true]
  rw [sortList_eq_map, sortList_eq_map]
  exact congrArg _ (insertionSort_eq_of_perm (h.map Node.sortNode))

/-! ## Comparator facts on leaves, for concrete sorting -/

theorem nle_var_lit (v : Nat) (k : Int) :
    nle (.leafExprNode (.var v)) (.leafExprNode (.intLit k)) := fun h =>
  Ordering.noConfusion h

theorem not_nle_lit_var (k : Int) (v : Nat) :
    ¬ nle (.leafExprNode (.intLit k)) (.leafExprNode (.var v)) := fun h => h rfl

theorem nle_lit_lit (a b : Int) :
    nle (.leafExprNode (.intLit a)) (.leafExprNode (.intLit b)) ↔ a ≤ b := by
  show lcmp a b ≠ .gt ↔ a ≤ b
  unfold lcmp
  split_ifs with h1 h2
  · simp; omega
  · simp; omega
  · simp; omega

/-- The terminal step of the normalize loop for the C3 scenario: a node
`v + T` with a variable and a single in-range constant leaf is a fixpoint of
coalesce-sort-fold, so the loop returns it unchanged. -/
theorem c3_final (v : Nat) (T : Int) (hT : inIntRange T = true) :
    normalizeNode (.binaryOperatorNode .add
      [.leafExprNode (.var v), .leafExprNode (.intLit T)]) =
    some (.binaryOperatorNode .add
      [.leafExprNode (.var v), .leafExprNode (.intLit T)]) := by
  have hco : Node.coalesce (.binaryOperatorNode .add
      [.leafExprNode (.var v), .leafExprNode (.intLit T)]) =
      (.binaryOperatorNode .add
        [.leafExprNode (.var v), .leafExprNode (.intLit T)], false) := by
    simp [Node.coalesce, Node.coalesceList, canMerge]
  have hso : Node.sortNode (.binaryOperatorNode .add
      [.leafExprNode (.var v), .leafExprNode (.intLit T)]) =
      .binaryOperatorNode .add
        [.leafExprNode (.var v), .leafExprNode (.intLit T)] := by
    simp [Node.sortNode, Node.sortList, BinOpc.commAssoc, List.insertionSort,
      List.orderedInsert, nle_var_lit]
  have hfo : Node.constantFold (.binaryOperatorNode .add
      [.leafExprNode (.var v), .leafExprNode (.intLit T)]) =
      some ⟨.binaryOperatorNode .add
        [.leafExprNode (.var v), .leafExprNode (.intLit T)], false, false⟩ := by
    simp [Node.constantFold, Node.constantFoldList, foldConsts, constLeafVals,
      evalConst?, hT, BinOpc.commAssoc]
  have hstep : normStep (.binaryOperatorNode .add
      [.leafExprNode (.var v), .leafExprNode (.intLit T)]) =
      some (.binaryOperatorNode .add
        [.leafExprNode (.var v), .leafExprNode (.intLit T)], false) := by
    simp only [normStep, hco, hso, hfo]
    rfl
  rw [normalizeNode, normLoopFuel, hstep]
  rfl



/-- C3: canonicalizing `x + c1 + c2` and `x + (c1 + c2)` yields the same tree:
both flatten to the child multiset (0, x, c1, c2), sort to the same ordered
list, and constant-fold the three integer-constant leaves into the single
leaf `c1 + c2`, giving `x + (c1+c2)` in canonical form; if `c1 + c2`
overflows the `int` range, the fold reports `Error` (here `none`) for both,
and no tree with a wrapped constant is ever produced. -/
theorem C3_constant_fold_sound (v : Nat) (c1 c2 : Int)
    (h1 : inIntRange c1 = true) (h2 : inIntRange c2 = true) :
    (inIntRange (c1 + c2) = true →
      normalizeAST (.bin .add (.bin .add (.var v) (.intLit c1)) (.intLit c2)) =
        some (.binaryOperatorNode .add [.leafExprNode (.var v), .leafExprNode (.intLit (c1 + c2))]) ∧
      normalizeAST (.bin .add (.var v) (.bin .add (.intLit c1) (.intLit c2))) =
        some (.binaryOperatorNode .add [.leafExprNode (.var v), .leafExprNode (.intLit (c1 + c2))])) ∧
    (inIntRange (c1 + c2) = false →
      normalizeAST (.bin .add (.bin .add (.var v) (.intLit c1)) (.intLit c2)) = none ∧
      normalizeAST (.bin .add (.var v) (.bin .add (.intLit c1) (.intLit c2))) = none) := by
  have h0 : inIntRange 0 = true := by decide
  have hbe : (BinOpc.add == BinOpc.mul) = false := rfl
  have hA : Node.coalesce (createRoot (.bin .add (.bin .add (.var v) (.intLit c1)) (.intLit c2))) =
      (.binaryOperatorNode .add [.leafExprNode (.intLit 0), .leafExprNode (.intLit c2), .leafExprNode (.var v), .leafExprNode (.intLit c1)], true) := by
    simp [createRoot, mkAddZero, zeroLit, Expr.create, Node.coalesce,
      Node.coalesceList, canMerge, childrenOf, BinOpc.commAssoc]
  have hB : Node.coalesce (createRoot (.bin .add (.var v) (.bin .add (.intLit c1) (.intLit c2)))) =
      (.binaryOperatorNode .add [.leafExprNode (.intLit 0), .leafExprNode (.var v), .leafExprNode (.intLit c1), .leafExprNode (.intLit c2)], true) := by
    simp [createRoot, mkAddZero, zeroLit, Expr.create, Node.coalesce,
      Node.coalesceList, canMerge, childrenOf, BinOpc.commAssoc]
  have hcA : (createRoot (.bin .add (.bin .add (.var v) (.intLit c1)) (.intLit c2))).count = 7 := by
    simp [createRoot, mkAddZero, Expr.create, Node.count, Node.countList]
  have hcB : (createRoot (.bin .add (.var v) (.bin .add (.intLit c1) (.intLit c2)))).count = 7 := by
    simp [createRoot, mkAddZero, Expr.create, Node.count, Node.countList]
  have hperm : List.Perm
      ([.leafExprNode (.intLit 0), .leafExprNode (.var v), .leafExprNode (.intLit c1), .leafExprNode (.intLit c2)] : List Node)
      ([.leafExprNode (.intLit 0), .leafExprNode (.intLit c2), .leafExprNode (.var v), .leafExprNode (.intLit c1)] : List Node) :=
    (((List.Perm.swap (Node.leafExprNode (Expr.intLit c2))
        (Node.leafExprNode (Expr.intLit c1)) []).cons
          (Node.leafExprNode (Expr.var v))).trans
      (List.Perm.swap (Node.leafExprNode (Expr.intLit c2))
        (Node.leafExprNode (Expr.var v))
        [Node.leafExprNode (Expr.intLit c1)])).cons
      (Node.leafExprNode (Expr.intLit 0))
  have key : ∃ L, Node.sortNode (.binaryOperatorNode .add
        [.leafExprNode (.intLit 0), .leafExprNode (.intLit c2), .leafExprNode (.var v), .leafExprNode (.intLit c1)]) = .binaryOperatorNode .add L ∧
      Node.constantFold (.binaryOperatorNode .add L) =
        (if inIntRange (c1 + c2) = true then
          some ⟨.binaryOperatorNode .add [.leafExprNode (.var v), .leafExprNode (.intLit (c1 + c2))], true, false⟩
        else none) := by
    rcases le_or_lt c2 c1 with hv1 | hv1
    · rcases le_or_lt 0 c2 with hv2 | hv2
      · refine ⟨[.leafExprNode (.var v), .leafExprNode (.intLit 0), .leafExprNode (.intLit c2), .leafExprNode (.intLit c1)], ?_, ?_⟩
        · simp [Node.sortNode, Node.sortList, BinOpc.commAssoc, List.insertionSort,
            List.orderedInsert, nle_var_lit, not_nle_lit_var, nle_lit_lit, hv1, hv2]
        · rcases hT : inIntRange (c1 + c2) with _ | _ <;>
            simp [Node.constantFold, Node.constantFoldList, foldConsts, constLeafVals,
              constStartIdx, foldValsAll, foldVals, evalConst?, BinOpc.commAssoc, hbe,
              h0, h1, h2, hT, Int.add_comm c2 c1, List.findIdx_cons, Bool.false_eq_true]
      · have hv2' : ¬ (0 ≤ c2) := not_le.mpr hv2
        rcases le_or_lt 0 c1 with hv3 | hv3
        · refine ⟨[.leafExprNode (.var v), .leafExprNode (.intLit c2), .leafExprNode (.intLit 0), .leafExprNode (.intLit c1)], ?_, ?_⟩
          · simp [Node.sortNode, Node.sortList, BinOpc.commAssoc, List.insertionSort,
              List.orderedInsert, nle_var_lit, not_nle_lit_var, nle_lit_lit, hv1, hv2', hv3]
          · rcases hT : inIntRange (c1 + c2) with _ | _ <;>
              simp [Node.constantFold, Node.constantFoldList, foldConsts, constLeafVals,
                constStartIdx, foldValsAll, foldVals, evalConst?, BinOpc.commAssoc, hbe,
                h0, h1, h2, hT, Int.add_comm c2 c1, List.findIdx_cons, Bool.false_eq_true]
        · have hv3' : ¬ (0 ≤ c1) := not_le.mpr hv3
          refine ⟨[.leafExprNode (.var v), .leafExprNode (.intLit c2), .leafExprNode (.intLit c1), .leafExprNode (.intLit 0)], ?_, ?_⟩
          · simp [Node.sortNode, Node.sortList, BinOpc.commAssoc, List.insertionSort,
              List.orderedInsert, nle_var_lit, not_nle_lit_var, nle_lit_lit, hv1, hv2', hv3']
          · rcases hT : inIntRange (c1 + c2) with _ | _ <;>
              simp [Node.constantFold, Node.constantFoldList, foldConsts, constLeafVals,
                constStartIdx, foldValsAll, foldVals, evalConst?, BinOpc.commAssoc, hbe,
                h0, h1, h2, hT, Int.add_comm c2 c1, List.findIdx_cons, Bool.false_eq_true]
    · have hv1' : ¬ (c2 ≤ c1) := not_le.mpr hv1
      rcases le_or_lt 0 c1 with hv2 | hv2
      · refine ⟨[.leafExprNode (.var v), .leafExprNode (.intLit 0), .leafExprNode (.intLit c1), .leafExprNode (.intLit c2)], ?_, ?_⟩
        · simp [Node.sortNode, Node.sortList, BinOpc.commAssoc, List.insertionSort,
            List.orderedInsert, nle_var_lit, not_nle_lit_var, nle_lit_lit, hv1', hv2]
        · rcases hT : inIntRange (c1 + c2) with _ | _ <;>
            simp [Node.constantFold, Node.constantFoldList, foldConsts, constLeafVals,
              constStartIdx, foldValsAll, foldVals, evalConst?, BinOpc.commAssoc, hbe,
              h0, h1, h2, hT, Int.add_comm c2 c1, List.findIdx_cons, Bool.false_eq_true]
      · have hv2' : ¬ (0 ≤ c1) := not_le.mpr hv2
        rcases le_or_lt 0 c2 with hv3 | hv3
        · refine ⟨[.leafExprNode (.var v), .leafExprNode (.intLit c1), .leafExprNode (.intLit 0), .leafExprNode (.intLit c2)], ?_, ?_⟩
          · simp [Node.sortNode, Node.sortList, BinOpc.commAssoc, List.insertionSort,
              List.orderedInsert, nle_var_lit, not_nle_lit_var, nle_lit_lit, hv1', hv2', hv3]
          · rcases hT : inIntRange (c1 + c2) with _ | _ <;>
              simp [Node.constantFold, Node.constantFoldList, foldConsts, constLeafVals,
                constStartIdx, foldValsAll, foldVals, evalConst?, BinOpc.commAssoc, hbe,
                h0, h1, h2, hT, Int.add_comm c2 c1, List.findIdx_cons, Bool.false_eq_true]
        · have hv3' : ¬ (0 ≤ c2) := not_le.mpr hv3
          refine ⟨[.leafExprNode (.var v), .leafExprNode (.intLit c1), .leafExprNode (.intLit c2), .leafExprNode (.intLit 0)], ?_, ?_⟩
          · simp [Node.sortNode, Node.sortList, BinOpc.commAssoc, List.insertionSort,
              List.orderedInsert, nle_var_lit, not_nle_lit_var, nle_lit_lit, hv1', hv2', hv3']
          · rcases hT : inIntRange (c1 + c2) with _ | _ <;>
              simp [Node.constantFold, Node.constantFoldList, foldConsts, constLeafVals,
                constStartIdx, foldValsAll, foldVals, evalConst?, BinOpc.commAssoc, hbe,
                h0, h1, h2, hT, Int.add_comm c2 c1, List.findIdx_cons, Bool.false_eq_true]
  obtain ⟨L, hsA, hfold⟩ := key
  have hsB : Node.sortNode (.binaryOperatorNode .add
      [.leafExprNode (.intLit 0), .leafExprNode (.var v), .leafExprNode (.intLit c1), .leafExprNode (.intLit c2)]) = .binaryOperatorNode .add L := by
    rw [sortNode_congr_perm (show BinOpc.add.commAssoc = true from rfl) hperm]
    exact hsA
  have hlt : (Node.binaryOperatorNode .add [.leafExprNode (.var v), .leafExprNode (.intLit (c1 + c2))]).count < 7 := by
    simp [Node.count, Node.countList]
  constructor
  · intro hT
    rw [hT] at hfold
    simp only [if_true] at hfold
    have hstepA : normStep (createRoot (.bin .add (.bin .add (.var v) (.intLit c1)) (.intLit c2))) =
        some (.binaryOperatorNode .add [.leafExprNode (.var v), .leafExprNode (.intLit (c1 + c2))], true) := by
      simp only [normStep, hA, hsA, hfold]
      rfl
    have hstepB : normStep (createRoot (.bin .add (.var v) (.bin .add (.intLit c1) (.intLit c2)))) =
        some (.binaryOperatorNode .add [.leafExprNode (.var v), .leafExprNode (.intLit (c1 + c2))], true) := by
      simp only [normStep, hB, hsB, hfold]
      rfl
    constructor
    · have hloop : normLoopFuel ((createRoot (.bin .add (.bin .add (.var v) (.intLit c1)) (.intLit c2))).count + 1)
          (createRoot (.bin .add (.bin .add (.var v) (.intLit c1)) (.intLit c2))) =
          normLoopFuel ((createRoot (.bin .add (.bin .add (.var v) (.intLit c1)) (.intLit c2))).count)
            (.binaryOperatorNode .add [.leafExprNode (.var v), .leafExprNode (.intLit (c1 + c2))]) := by
        rw [normLoopFuel, hstepA]
        rfl
      rw [normalizeAST, normalizeNode, hloop, hcA, normLoopFuel_ge hlt,
        c3_final v (c1 + c2) hT]
    · have hloop : normLoopFuel ((createRoot (.bin .add (.var v) (.bin .add (.intLit c1) (.intLit c2)))).count + 1)
          (createRoot (.bin .add (.var v) (.bin .add (.intLit c1) (.intLit c2)))) =
          normLoopFuel ((createRoot (.bin .add (.var v) (.bin .add (.intLit c1) (.intLit c2)))).count)
            (.binaryOperatorNode .add [.leafExprNode (.var v), .leafExprNode (.intLit (c1 + c2))]) := by
        rw [normLoopFuel, hstepB]
        rfl
      rw [normalizeAST, normalizeNode, hloop, hcB, normLoopFuel_ge hlt,
        c3_final v (c1 + c2) hT]
  · intro hT
    rw [hT] at hfold
    simp only [Bool.false_eq_true, if_false] at hfold
    have hstepA : normStep (createRoot (.bin .add (.bin .add (.var v) (.intLit c1)) (.intLit c2))) = none := by
      simp only [normStep, hA, hsA, hfold]
    have hstepB : normStep (createRoot (.bin .add (.var v) (.bin .add (.intLit c1) (.intLit c2)))) = none := by
      simp only [normStep, hB, hsB, hfold]
    constructor
    · rw [normalizeAST, normalizeNode, normLoopFuel, hstepA]
    · rw [normalizeAST, normalizeNode, normLoopFuel, hstepB]

/-- C3 (witness): `x + 1 + 2` and `x + (1 + 2)` both canonicalize to
`x + 3`. -/
theorem C3_constant_fold_sound_witness :
    (inIntRange ((1 : Int) + 2) = true →
      normalizeAST (.bin .add (.bin .add (.var 0) (.intLit 1)) (.intLit 2)) =
        some (.binaryOperatorNode .add
          [.leafExprNode (.var 0), .leafExprNode (.intLit (1 + 2))]) ∧
      normalizeAST (.bin .add (.var 0) (.bin .add (.intLit 1) (.intLit 2))) =
        some (.binaryOperatorNode .add
          [.leafExprNode (.var 0), .leafExprNode (.intLit (1 + 2))])) ∧
    (inIntRange ((1 : Int) + 2) = false →
      normalizeAST (.bin .add (.bin .add (.var 0) (.intLit 1)) (.intLit 2)) = none ∧
      normalizeAST (.bin .add (.var 0) (.bin .add (.intLit 1) (.intLit 2))) = none) :=
  C3_constant_fold_sound 0 1 2 (by decide) (by decide)



/-! ## Commutative/associative invariance machinery (C4)

`BinaryOperatorNode::Coalesce` keeps the non-mergeable children in order and
appends the spliced children of the mergeable ones; `spliceMerge` names that
child-list transformation so its permutation behaviour can be stated. -/

def spliceMerge (op : BinOpc) (l : List Node) : List Node :=
  l.filter (fun c => !canMerge op c) ++
    (l.filter (fun c => canMerge op c)).flatMap childrenOf

theorem coalesce_bin_F (op : BinOpc) (cs : List Node) :
    Node.coalesce (.binaryOperatorNode op cs) =
      (.binaryOperatorNode op (spliceMerge op (Node.coalesceList cs).1),
        (Node.coalesceList cs).2 || (Node.coalesceList cs).1.any (canMerge op)) := rfl

theorem spliceMerge_perm (op : BinOpc) {l1 l2 : List Node} (h : l1.Perm l2) :
    (spliceMerge op l1).Perm (spliceMerge op l2) :=
  (h.filter _).append ((h.filter _).flatMap_right _)

/-- The contribution of one child to the coalesced child list: its own
children if it merges into the parent, itself otherwise. -/
def pieces (op : BinOpc) (n : Node) : List Node :=
  if canMerge op n then childrenOf n else [n]

theorem spliceMerge_pair (op : BinOpc) (p q : Node) :
    (spliceMerge op [p, q]).Perm (pieces op p ++ pieces op q) := by
  unfold spliceMerge pieces
  rcases hp : canMerge op p with _ | _ <;> rcases hq : canMerge op q with _ | _ <;>
    simp [List.filter_cons, hp, hq]
  exact show (([q] : List Node) ++ childrenOf p).Perm (childrenOf p ++ [q]) from
    List.perm_append_comm

/-- Trees of commutative-and-associative operators only: every binary node
has a `+`/`*` operator and at least two children (as built by `Create` from
a `+`/`*`-only expression and maintained by `Coalesce`). -/
def Expr.addMulOnly : Expr → Bool
  | .var _ => true
  | .intLit _ => true
  | .bin .add l r => l.addMulOnly && r.addMulOnly
  | .bin .mul l r => l.addMulOnly && r.addMulOnly
  | _ => false

mutual

def Node.amTree : Node → Bool
  | .binaryOperatorNode op cs =>
      op.commAssoc && decide (2 ≤ cs.length) && Node.amTreeList cs
  | .leafExprNode _ => true
  | _ => false

def Node.amTreeList : List Node → Bool
  | [] => true
  | c :: cs => c.amTree && Node.amTreeList cs

end

theorem amTreeList_iff {l : List Node} :
    Node.amTreeList l = true ↔ ∀ c ∈ l, Node.amTree c = true := by
  induction l with
  | nil => simp [Node.amTreeList]
  | cons c cs ih => simp [Node.amTreeList, ih]

theorem amTree_bin_iff {op : BinOpc} {cs : List Node} :
    Node.amTree (.binaryOperatorNode op cs) = true ↔
      op.commAssoc = true ∧ 2 ≤ cs.length ∧ Node.amTreeList cs = true := by
  simp [Node.amTree, and_assoc]

theorem childrenOf_am {c : Node} (h : Node.amTree c = true) :
    ∀ g ∈ childrenOf c, Node.amTree g = true := by
  cases c with
  | binaryOperatorNode op cs =>
    intro g hg
    exact amTreeList_iff.mp (amTree_bin_iff.mp h).2.2 g hg
  | leafExprNode e =>
    intro g hg
    have hg2 : g ∈ [Node.leafExprNode e] := hg
    rw [List.mem_singleton] at hg2
    subst hg2
    rfl
  | unaryOperatorNode o c => simp [Node.amTree] at h
  | memberNode f ar b => simp [Node.amTree] at h
  | implicitCastNode k c => simp [Node.amTree] at h

theorem canMerge_children_ge {op : BinOpc} {c : Node} (hm : canMerge op c = true)
    (ha : Node.amTree c = true) : 1 ≤ (childrenOf c).length := by
  cases c with
  | binaryOperatorNode o cs =>
    have := (amTree_bin_iff.mp ha).2.1
    rw [childrenOf]
    omega
  | leafExprNode e => exact nomatch hm
  | unaryOperatorNode o c => exact nomatch hm
  | memberNode f ar b => exact nomatch hm
  | implicitCastNode k c => exact nomatch hm

theorem spliceMerge_length (op : BinOpc) : ∀ l : List Node,
    Node.amTreeList l = true → l.length ≤ (spliceMerge op l).length := by
  intro l
  induction l with
  | nil => intro _; simp [spliceMerge]
  | cons c cs ih =>
    intro hl
    rw [Node.amTreeList, Bool.and_eq_true] at hl
    have ihc := ih hl.2
    rcases hc : canMerge op c with _ | _ <;>
      simp [spliceMerge, List.filter_cons, hc, List.length_append,
        List.length_flatMap] at ihc ⊢
    · omega
    · have := canMerge_children_ge hc hl.1
      omega

theorem spliceMerge_am {op : BinOpc} {l : List Node}
    (h : Node.amTreeList l = true) : Node.amTreeList (spliceMerge op l) = true := by
  rw [amTreeList_iff] at h ⊢
  intro c hc
  rw [spliceMerge, List.mem_append] at hc
  rcases hc with hc | hc
  · exact h c (List.mem_of_mem_filter hc)
  · rw [List.mem_flatMap] at hc
    obtain ⟨p, hp, hcp⟩ := hc
    exact childrenOf_am (h p (List.mem_of_mem_filter hp)) c hcp

theorem coalesceList_length : ∀ cs : List Node,
    (Node.coalesceList cs).1.length = cs.length := by
  intro cs
  induction cs with
  | nil => rfl
  | cons c cs ih => rw [coalesceList_cons_eq]; simp [ih]

theorem coalesceList_mem : ∀ cs : List Node, ∀ c' ∈ (Node.coalesceList cs).1,
    ∃ c ∈ cs, c' = (Node.coalesce c).1 := by
  intro cs
  induction cs with
  | nil => intro c' h; rw [Node.coalesceList] at h; simp at h
  | cons c cs ih =>
    intro c' h
    rw [coalesceList_cons_eq] at h
    simp only [List.mem_cons] at h
    rcases h with h | h
    · exact ⟨c, List.mem_cons_self c cs, h⟩
    · obtain ⟨d, hd, he⟩ := ih c' h
      exact ⟨d, List.mem_cons_of_mem c hd, he⟩

theorem am_coalesce : ∀ n : Node, Node.amTree n = true →
    Node.amTree (Node.coalesce n).1 = true := by
  refine nodeInd (P := fun n => Node.amTree n = true →
    Node.amTree (Node.coalesce n).1 = true) ?_ ?_ ?_ ?_ ?_
  · intro op cs ih ha
    obtain ⟨hop, hlen, hcs⟩ := amTree_bin_iff.mp ha
    rw [coalesce_bin_F]
    have hL : Node.amTreeList (Node.coalesceList cs).1 = true := by
      rw [amTreeList_iff]
      intro c' hc'
      obtain ⟨c, hc, rfl⟩ := coalesceList_mem cs c' hc'
      exact ih c hc (amTreeList_iff.mp hcs c hc)
    refine amTree_bin_iff.mpr ⟨hop, ?_, spliceMerge_am hL⟩
    have h1 := spliceMerge_length op (Node.coalesceList cs).1 hL
    have h2 := coalesceList_length cs
    omega
  · intro o c _ ha; simp [Node.amTree] at ha
  · intro f ar b _ ha; simp [Node.amTree] at ha
  · intro k c _ ha; simp [Node.amTree] at ha
  · intro e _; rfl

/-! ## Congruences for the normalize pipeline -/

theorem sortNode_congr_mapPerm {op : BinOpc} (hop : op.commAssoc = true)
    {l1 l2 : List Node} (h : (l1.map Node.sortNode).Perm (l2.map Node.sortNode)) :
    Node.sortNode (.binaryOperatorNode op l1) =
      Node.sortNode (.binaryOperatorNode op l2) := by
  rw [sortNode_bin_eq, sortNode_bin_eq, hop]
  simp only [if_true]
  rw [sortList_eq_map, sortList_eq_map]
  exact congrArg _ (insertionSort_eq_of_perm h)

theorem normalizeNode_congr {n1 n2 : Node} (hs : normStep n1 = normStep n2)
    (hc : n1.count = n2.count) : normalizeNode n1 = normalizeNode n2 := by
  rw [normalizeNode, normalizeNode, hc, normLoopFuel, normLoopFuel, hs]



theorem coalesce_leaf_eq (e : Expr) :
    Node.coalesce (.leafExprNode e) = (.leafExprNode e, false) := rfl

theorem am_create : ∀ e : Expr, Expr.addMulOnly e = true →
    Node.amTree e.create = true := by
  intro e
  induction e with
  | var v => intro _; simp [Expr.create, Node.amTree]
  | intLit n => intro _; simp [Expr.create, Node.amTree]
  | bin op l r ihl ihr =>
    intro h
    cases op with
    | add =>
      rw [Expr.addMulOnly, Bool.and_eq_true] at h
      rw [Expr.create, if_neg (fun hx => BinOpc.noConfusion hx.1)]
      refine amTree_bin_iff.mpr ⟨rfl, by simp, ?_⟩
      rw [amTreeList_iff]
      intro c hc
      simp only [List.mem_cons, List.not_mem_nil, or_false] at hc
      rcases hc with rfl | rfl
      · exact ihl h.1
      · exact ihr h.2
    | mul =>
      rw [Expr.addMulOnly, Bool.and_eq_true] at h
      rw [Expr.create, if_neg (fun hx => BinOpc.noConfusion hx.1)]
      refine amTree_bin_iff.mpr ⟨rfl, by simp, ?_⟩
      rw [amTreeList_iff]
      intro c hc
      simp only [List.mem_cons, List.not_mem_nil, or_false] at hc
      rcases hc with rfl | rfl
      · exact ihl h.1
      · exact ihr h.2
    | sub => exact nomatch h
    | div => exact nomatch h
    | rem => exact nomatch h
  | un o e ih => intro h; exact nomatch h
  | member b f a ih => intro h; exact nomatch h
  | subscript b i ih1 ih2 => intro h; exact nomatch h
  | implicitCast k e ih => intro h; exact nomatch h

theorem pieces_add_addbin (l : List Node) :
    pieces .add (.binaryOperatorNode .add l) = l := by
  simp [pieces, canMerge, BinOpc.commAssoc, childrenOf]

theorem spliceMerge_zl_addbin (e : Expr) (l : List Node) :
    spliceMerge .add [.leafExprNode e, .binaryOperatorNode .add l] =
      .leafExprNode e :: l := by
  simp [spliceMerge, List.filter_cons, canMerge, BinOpc.commAssoc, childrenOf]

theorem spliceMerge_zl_mulbin (e : Expr) (l : List Node)
    (h : (l.length == 1) = false) :
    spliceMerge .add [.leafExprNode e, .binaryOperatorNode .mul l] =
      [.leafExprNode e, .binaryOperatorNode .mul l] := by
  simp [spliceMerge, List.filter_cons, canMerge, BinOpc.commAssoc, childrenOf, h]

theorem create_bin_eq {op : BinOpc} (hne : op ≠ .sub) (x y : Expr) :
    (Expr.bin op x y).create = .binaryOperatorNode op [x.create, y.create] := by
  rw [Expr.create, if_neg (fun hx => hne hx.1)]



/-- C4: canonicalization of `+`/`*`-only expressions is invariant under
commutative reordering (`a op b` vs `b op a` canonicalize identically for the
commutative-and-associative operators) and under associative regrouping
(`(a+b)+c` vs `a+(b+c)` flatten to the same ordered child list): coalescing
produces permuted child multisets and the comparator-ordered sort maps any
permutation to the one canonical order. -/
theorem C4_comm_assoc_invariance :
    (∀ (op : BinOpc) (a b : Expr), op.commAssoc = true →
      a.addMulOnly = true → b.addMulOnly = true →
      normalizeAST (.bin op a b) = normalizeAST (.bin op b a)) ∧
    (∀ a b c : Expr, a.addMulOnly = true → b.addMulOnly = true →
      c.addMulOnly = true →
      normalizeAST (.bin .add (.bin .add a b) c) =
        normalizeAST (.bin .add a (.bin .add b c))) := by
  constructor
  · intro op a b hop ha hb
    have hamA := am_coalesce _ (am_create a ha)
    have hamB := am_coalesce _ (am_create b hb)
    cases op with
    | sub => exact absurd hop (by decide)
    | div => exact absurd hop (by decide)
    | rem => exact absurd hop (by decide)
    | add =>
      have hco1 : Node.coalesce (createRoot (.bin .add a b)) =
          (.binaryOperatorNode .add (.leafExprNode zeroLit ::
            spliceMerge .add [(Node.coalesce a.create).1, (Node.coalesce b.create).1]), true) := by
        rw [createRoot, create_bin_eq (by decide) a b, mkAddZero]
        simp [coalesce_bin_F, coalesceList_cons_eq, Node.coalesceList, coalesce_leaf_eq,
          spliceMerge_zl_addbin, canMerge, BinOpc.commAssoc]
      have hco2 : Node.coalesce (createRoot (.bin .add b a)) =
          (.binaryOperatorNode .add (.leafExprNode zeroLit ::
            spliceMerge .add [(Node.coalesce b.create).1, (Node.coalesce a.create).1]), true) := by
        rw [createRoot, create_bin_eq (by decide) b a, mkAddZero]
        simp [coalesce_bin_F, coalesceList_cons_eq, Node.coalesceList, coalesce_leaf_eq,
          spliceMerge_zl_addbin, canMerge, BinOpc.commAssoc]
      have P : (spliceMerge .add [(Node.coalesce a.create).1, (Node.coalesce b.create).1]).Perm
          (spliceMerge .add [(Node.coalesce b.create).1, (Node.coalesce a.create).1]) :=
        (spliceMerge_pair .add _ _).trans
          (List.perm_append_comm.trans (spliceMerge_pair .add _ _).symm)
      have hsort : Node.sortNode (.binaryOperatorNode .add (.leafExprNode zeroLit ::
            spliceMerge .add [(Node.coalesce a.create).1, (Node.coalesce b.create).1])) =
          Node.sortNode (.binaryOperatorNode .add (.leafExprNode zeroLit ::
            spliceMerge .add [(Node.coalesce b.create).1, (Node.coalesce a.create).1])) :=
        sortNode_congr_mapPerm (show BinOpc.add.commAssoc = true from rfl)
          ((P.map Node.sortNode).cons _)
      have hstep : normStep (createRoot (.bin .add a b)) =
          normStep (createRoot (.bin .add b a)) := by
        simp only [normStep, hco1, hco2, hsort]
      have hcount : (createRoot (.bin .add a b)).count =
          (createRoot (.bin .add b a)).count := by
        rw [createRoot, createRoot, create_bin_eq (by decide) a b,
          create_bin_eq (by decide) b a, mkAddZero, mkAddZero]
        simp [Node.count, Node.countList]
        omega
      rw [normalizeAST, normalizeAST]
      exact normalizeNode_congr hstep hcount
    | mul =>
      have hamL1 : Node.amTreeList [(Node.coalesce a.create).1, (Node.coalesce b.create).1] = true := by
        rw [amTreeList_iff]
        intro x hx
        simp only [List.mem_cons, List.not_mem_nil, or_false] at hx
        rcases hx with rfl | rfl
        · exact hamA
        · exact hamB
      have hamL2 : Node.amTreeList [(Node.coalesce b.create).1, (Node.coalesce a.create).1] = true := by
        rw [amTreeList_iff]
        intro x hx
        simp only [List.mem_cons, List.not_mem_nil, or_false] at hx
        rcases hx with rfl | rfl
        · exact hamB
        · exact hamA
      have hlen1 : ((spliceMerge .mul [(Node.coalesce a.create).1, (Node.coalesce b.create).1]).length == 1) = false := by
        rw [beq_eq_false_iff_ne]
        have h2 := spliceMerge_length .mul [(Node.coalesce a.create).1, (Node.coalesce b.create).1] hamL1
        simp only [List.length_cons, List.length_nil] at h2
        omega
      have hlen2 : ((spliceMerge .mul [(Node.coalesce b.create).1, (Node.coalesce a.create).1]).length == 1) = false := by
        rw [beq_eq_false_iff_ne]
        have h2 := spliceMerge_length .mul [(Node.coalesce b.create).1, (Node.coalesce a.create).1] hamL2
        simp only [List.length_cons, List.length_nil] at h2
        omega
      have hco1 : Node.coalesce (createRoot (.bin .mul a b)) =
          (.binaryOperatorNode .add [.leafExprNode zeroLit,
            .binaryOperatorNode .mul (spliceMerge .mul [(Node.coalesce a.create).1, (Node.coalesce b.create).1])],
           (((Node.coalesce a.create).2 || (Node.coalesce b.create).2) ||
             (canMerge .mul (Node.coalesce a.create).1 || canMerge .mul (Node.coalesce b.create).1))) := by
        rw [createRoot, create_bin_eq (by decide) a b, mkAddZero]
        simp [coalesce_bin_F, coalesceList_cons_eq, Node.coalesceList,
          coalesce_leaf_eq, spliceMerge_zl_mulbin _ _ hlen1, canMerge,
          BinOpc.commAssoc, hlen1]
      have hco2 : Node.coalesce (createRoot (.bin .mul b a)) =
          (.binaryOperatorNode .add [.leafExprNode zeroLit,
            .binaryOperatorNode .mul (spliceMerge .mul [(Node.coalesce b.create).1, (Node.coalesce a.create).1])],
           (((Node.coalesce b.create).2 || (Node.coalesce a.create).2) ||
             (canMerge .mul (Node.coalesce b.create).1 || canMerge .mul (Node.coalesce a.create).1))) := by
        rw [createRoot, create_bin_eq (by decide) b a, mkAddZero]
        simp [coalesce_bin_F, coalesceList_cons_eq, Node.coalesceList,
          coalesce_leaf_eq, spliceMerge_zl_mulbin _ _ hlen2, canMerge,
          BinOpc.commAssoc, hlen2]
      have hflag : (((Node.coalesce a.create).2 || (Node.coalesce b.create).2) ||
            (canMerge .mul (Node.coalesce a.create).1 || canMerge .mul (Node.coalesce b.create).1)) =
          (((Node.coalesce b.create).2 || (Node.coalesce a.create).2) ||
            (canMerge .mul (Node.coalesce b.create).1 || canMerge .mul (Node.coalesce a.create).1)) := by
        rcases h1 : (Node.coalesce a.create).2 with _ | _ <;> rcases h2 : (Node.coalesce b.create).2 with _ | _ <;>
          rcases h3 : canMerge .mul (Node.coalesce a.create).1 with _ | _ <;>
          rcases h4 : canMerge .mul (Node.coalesce b.create).1 with _ | _ <;> rfl
      have P : (spliceMerge .mul [(Node.coalesce a.create).1, (Node.coalesce b.create).1]).Perm
          (spliceMerge .mul [(Node.coalesce b.create).1, (Node.coalesce a.create).1]) :=
        (spliceMerge_pair .mul _ _).trans
          (List.perm_append_comm.trans (spliceMerge_pair .mul _ _).symm)
      have hsX : Node.sortNode (.binaryOperatorNode .mul
            (spliceMerge .mul [(Node.coalesce a.create).1, (Node.coalesce b.create).1])) =
          Node.sortNode (.binaryOperatorNode .mul
            (spliceMerge .mul [(Node.coalesce b.create).1, (Node.coalesce a.create).1])) :=
        sortNode_congr_perm (show BinOpc.mul.commAssoc = true from rfl) P
      have hsort : Node.sortNode (.binaryOperatorNode .add [.leafExprNode zeroLit,
            .binaryOperatorNode .mul (spliceMerge .mul [(Node.coalesce a.create).1, (Node.coalesce b.create).1])]) =
          Node.sortNode (.binaryOperatorNode .add [.leafExprNode zeroLit,
            .binaryOperatorNode .mul (spliceMerge .mul [(Node.coalesce b.create).1, (Node.coalesce a.create).1])]) :=
        sortNode_congr_mapPerm (show BinOpc.add.commAssoc = true from rfl)
          (List.Perm.of_eq (by simp [hsX]))
      have hstep : normStep (createRoot (.bin .mul a b)) =
          normStep (createRoot (.bin .mul b a)) := by
        rw [normStep, normStep, hco1, hco2, hflag, hsort]
      have hcount : (createRoot (.bin .mul a b)).count =
          (createRoot (.bin .mul b a)).count := by
        rw [createRoot, createRoot, create_bin_eq (by decide) a b,
          create_bin_eq (by decide) b a, mkAddZero, mkAddZero]
        simp [Node.count, Node.countList]
        omega
      rw [normalizeAST, normalizeAST]
      exact normalizeNode_congr hstep hcount
  · intro a b c ha hb hc
    have hco1 : Node.coalesce (createRoot (.bin .add (.bin .add a b) c)) =
        (.binaryOperatorNode .add (.leafExprNode zeroLit :: spliceMerge .add
          [.binaryOperatorNode .add (spliceMerge .add [(Node.coalesce a.create).1, (Node.coalesce b.create).1]), (Node.coalesce c.create).1]),
         true) := by
      rw [createRoot, create_bin_eq (by decide) (Expr.bin .add a b) c,
        create_bin_eq (by decide) a b, mkAddZero]
      simp [coalesce_bin_F, coalesceList_cons_eq, Node.coalesceList, coalesce_leaf_eq,
          spliceMerge_zl_addbin, canMerge, BinOpc.commAssoc]
    have hco2 : Node.coalesce (createRoot (.bin .add a (.bin .add b c))) =
        (.binaryOperatorNode .add (.leafExprNode zeroLit :: spliceMerge .add
          [(Node.coalesce a.create).1, .binaryOperatorNode .add (spliceMerge .add [(Node.coalesce b.create).1, (Node.coalesce c.create).1])]),
         true) := by
      rw [createRoot, create_bin_eq (by decide) a (Expr.bin .add b c),
        create_bin_eq (by decide) b c, mkAddZero]
      simp [coalesce_bin_F, coalesceList_cons_eq, Node.coalesceList, coalesce_leaf_eq,
          spliceMerge_zl_addbin, canMerge, BinOpc.commAssoc]
    have P : (spliceMerge .add
          [.binaryOperatorNode .add (spliceMerge .add [(Node.coalesce a.create).1, (Node.coalesce b.create).1]), (Node.coalesce c.create).1]).Perm
        (spliceMerge .add
          [(Node.coalesce a.create).1, .binaryOperatorNode .add (spliceMerge .add [(Node.coalesce b.create).1, (Node.coalesce c.create).1])]) := by
      refine (spliceMerge_pair _ _ _).trans
        (List.Perm.trans ?_ (spliceMerge_pair _ _ _).symm)
      rw [pieces_add_addbin, pieces_add_addbin]
      refine ((spliceMerge_pair _ _ _).append (List.Perm.refl _)).trans ?_
      refine List.Perm.trans ?_
        ((List.Perm.refl _).append (spliceMerge_pair _ _ _).symm)
      rw [List.append_assoc]
    have hsort : Node.sortNode (.binaryOperatorNode .add (.leafExprNode zeroLit :: spliceMerge .add
          [.binaryOperatorNode .add (spliceMerge .add [(Node.coalesce a.create).1, (Node.coalesce b.create).1]), (Node.coalesce c.create).1])) =
        Node.sortNode (.binaryOperatorNode .add (.leafExprNode zeroLit :: spliceMerge .add
          [(Node.coalesce a.create).1, .binaryOperatorNode .add (spliceMerge .add [(Node.coalesce b.create).1, (Node.coalesce c.create).1])])) :=
      sortNode_congr_mapPerm (show BinOpc.add.commAssoc = true from rfl)
        ((P.map Node.sortNode).cons _)
    have hstep : normStep (createRoot (.bin .add (.bin .add a b) c)) =
        normStep (createRoot (.bin .add a (.bin .add b c))) := by
      simp only [normStep, hco1, hco2, hsort]
    have hcount : (createRoot (.bin .add (.bin .add a b) c)).count =
        (createRoot (.bin .add a (.bin .add b c))).count := by
      rw [createRoot, createRoot, create_bin_eq (by decide) (Expr.bin .add a b) c,
        create_bin_eq (by decide) a (Expr.bin .add b c),
        create_bin_eq (by decide) a b, create_bin_eq (by decide) b c,
        mkAddZero, mkAddZero]
      simp [Node.count, Node.countList]
      omega
    rw [normalizeAST, normalizeAST]
    exact normalizeNode_congr hstep hcount

/-- C4 (witness): `x * y` and `y * x` canonicalize identically, and so do
`(x + y) + z` and `x + (y + z)`. -/
theorem C4_comm_assoc_invariance_witness :
    normalizeAST (.bin .mul (.var 0) (.var 1)) =
      normalizeAST (.bin .mul (.var 1) (.var 0)) ∧
    normalizeAST (.bin .add (.bin .add (.var 0) (.var 1)) (.var 2)) =
      normalizeAST (.bin .add (.var 0) (.bin .add (.var 1) (.var 2))) :=
  ⟨C4_comm_assoc_invariance.1 .mul (.var 0) (.var 1) (by decide) (by decide)
      (by decide),
    C4_comm_assoc_invariance.2 (.var 0) (.var 1) (.var 2) (by decide) (by decide)
      (by decide)⟩



/-! ## `GetDerefOffset` against its specification (C2) -/

/-- A child that is an integer-constant leaf. -/
def isConstLeaf : Node → Bool
  | .leafExprNode e => (evalConst? e).isSome
  | _ => false

/-- The positions where the two child lists disagree structurally. -/
def specMism (cs1 cs2 : List Node) : List (Node × Node) :=
  (cs1.zip cs2).filter (fun p => !(Node.compare p.1 p.2 == .eq))

/-- The provable delta of one disagreeing child pair: both must be
integer-constant leaves, and the difference must be representable. -/
def specConstPair : Node → Node → Option Int
  | .leafExprNode e1, .leafExprNode e2 =>
      (match evalConst? e1, evalConst? e2 with
       | some u, some d => if inIntRange (d - u) then some (d - u) else none
       | _, _ => none)
  | _, _ => none

/-- The delta over two equally long child lists: zero if all children
compare equal, the single constant pair's difference if exactly one position
disagrees, no offset otherwise. -/
def specWalk (cs1 cs2 : List Node) : Option Int :=
  match specMism cs1 cs2 with
  | [] => some 0
  | [p] => specConstPair p.1 p.2
  | _ => none

/-- Written from the spec's words, for comparison with `getDerefOffset`:
a provable delta exists iff both roots are additive `BinaryOp` nodes with the
same operand count whose children compare structurally equal except for at
most one pair of integer-constant leaves; the delta is the dereference
constant minus the bound constant, with overflow detection. -/
def specGetDerefOffset (upper deref : Node) : Option Int :=
  match upper, deref with
  | .binaryOperatorNode .add cs1, .binaryOperatorNode .add cs2 =>
      if cs1.length = cs2.length then specWalk cs1 cs2 else none
  | _, _ => none

theorem specMism_cons_ne {c1 c2 : Node} (h : Node.compare c1 c2 ≠ .eq)
    (r1 r2 : List Node) :
    specMism (c1 :: r1) (c2 :: r2) = (c1, c2) :: specMism r1 r2 := by
  have hb : (Node.compare c1 c2 == Ordering.eq) = false := by
    rcases hcc : Node.compare c1 c2 with _ | _ | _
    · rfl
    · exact absurd hcc h
    · rfl
  simp [specMism, List.zip_cons_cons, List.filter_cons, hb]

theorem specMism_cons_eq {c1 c2 : Node} (h : Node.compare c1 c2 = .eq)
    (r1 r2 : List Node) :
    specMism (c1 :: r1) (c2 :: r2) = specMism r1 r2 := by
  have hb : (Node.compare c1 c2 == Ordering.eq) = true := by rw [h]; rfl
  simp [specMism, List.zip_cons_cons, List.filter_cons, hb]

theorem go_tail : ∀ r1 r2 : List Node, ∀ off : Int, r1.length = r2.length →
    (r1.filter isConstLeaf).length = 0 →
    derefOffsetGo .add r1 r2 off =
      (if specMism r1 r2 = [] then some off else none) := by
  intro r1
  induction r1 with
  | nil =>
    intro r2 off hlen hc
    rcases r2 with _ | ⟨c2, r2⟩
    · simp [derefOffsetGo, specMism]
    · simp at hlen
  | cons c1 r1 ih =>
    intro r2 off hlen hc
    rcases r2 with _ | ⟨c2, r2⟩
    · simp at hlen
    · simp only [List.length_cons, Nat.add_right_cancel_iff] at hlen
      have hc1 : isConstLeaf c1 = false := by
        rcases h : isConstLeaf c1 with _ | _
        · rfl
        · rw [List.filter_cons, h] at hc
          simp at hc
      have hcr : (r1.filter isConstLeaf).length = 0 := by
        rw [List.filter_cons, hc1] at hc
        simpa using hc
      by_cases hcmp : Node.compare c1 c2 = .eq
      · rw [specMism_cons_eq hcmp r1 r2]
        have hgo : derefOffsetGo .add (c1 :: r1) (c2 :: r2) off =
            derefOffsetGo .add r1 r2 off := by
          cases c1 <;> cases c2 <;> simp [derefOffsetGo, hcmp]
        rw [hgo]
        exact ih r2 off hlen hcr
      · rw [specMism_cons_ne hcmp r1 r2, if_neg (List.cons_ne_nil _ _)]
        cases c1 with
        | leafExprNode e1 =>
          have he1 : evalConst? e1 = none := by
            rw [isConstLeaf] at hc1
            rcases h : evalConst? e1 with _ | v
            · rfl
            · rw [h] at hc1; cases hc1
          cases c2 <;> simp [derefOffsetGo, hcmp, he1]
        | binaryOperatorNode o cs => cases c2 <;> simp [derefOffsetGo, hcmp]
        | unaryOperatorNode o c => cases c2 <;> simp [derefOffsetGo, hcmp]
        | memberNode f ar b => cases c2 <;> simp [derefOffsetGo, hcmp]
        | implicitCastNode k c => cases c2 <;> simp [derefOffsetGo, hcmp]


theorem go_spec : ∀ cs1 cs2 : List Node, cs1.length = cs2.length →
    (cs1.filter isConstLeaf).length ≤ 1 →
    derefOffsetGo .add cs1 cs2 0 = specWalk cs1 cs2 := by
  intro cs1
  induction cs1 with
  | nil =>
    intro cs2 hlen hc
    rcases cs2 with _ | ⟨c2, r2⟩
    · simp [derefOffsetGo, specWalk, specMism]
    · simp at hlen
  | cons c1 r1 ih =>
    intro cs2 hlen hc
    rcases cs2 with _ | ⟨c2, r2⟩
    · simp at hlen
    · simp only [List.length_cons, Nat.add_right_cancel_iff] at hlen
      by_cases hcmp : Node.compare c1 c2 = .eq
      · rw [specWalk, specMism_cons_eq hcmp r1 r2, ← specWalk]
        have hgo : derefOffsetGo .add (c1 :: r1) (c2 :: r2) 0 =
            derefOffsetGo .add r1 r2 0 := by
          cases c1 <;> cases c2 <;> simp [derefOffsetGo, hcmp]
        rw [hgo]
        refine ih r2 hlen ?_
        have hle : (r1.filter isConstLeaf).length ≤
            (List.filter isConstLeaf (c1 :: r1)).length := by
          rw [List.filter_cons]
          rcases h : isConstLeaf c1 with _ | _ <;> simp
        omega
      · rw [specWalk, specMism_cons_ne hcmp r1 r2]
        rcases hc1 : isConstLeaf c1 with _ | _
        · have hnone : derefOffsetGo .add (c1 :: r1) (c2 :: r2) 0 = none := by
            cases c1 with
            | leafExprNode e1 =>
              have he1 : evalConst? e1 = none := by
                rw [isConstLeaf] at hc1
                rcases h : evalConst? e1 with _ | v
                · rfl
                · rw [h] at hc1; cases hc1
              cases c2 <;> simp [derefOffsetGo, hcmp, he1]
            | binaryOperatorNode o cs => cases c2 <;> simp [derefOffsetGo, hcmp]
            | unaryOperatorNode o c => cases c2 <;> simp [derefOffsetGo, hcmp]
            | memberNode f ar b => cases c2 <;> simp [derefOffsetGo, hcmp]
            | implicitCastNode k c => cases c2 <;> simp [derefOffsetGo, hcmp]
          have hpair : specConstPair c1 c2 = none := by
            cases c1 with
            | leafExprNode e1 =>
              have he1 : evalConst? e1 = none := by
                rw [isConstLeaf] at hc1
                rcases h : evalConst? e1 with _ | v
                · rfl
                · rw [h] at hc1; cases hc1
              cases c2 <;> simp [specConstPair, he1]
            | binaryOperatorNode o cs => cases c2 <;> rfl
            | unaryOperatorNode o c => cases c2 <;> rfl
            | memberNode f ar b => cases c2 <;> rfl
            | implicitCastNode k c => cases c2 <;> rfl
          rw [hnone]
          rcases hm : specMism r1 r2 with _ | ⟨p, ps⟩ <;> simp [hpair]
        · have hcr : (r1.filter isConstLeaf).length = 0 := by
            have h2 : (List.filter isConstLeaf (c1 :: r1)).length =
                (r1.filter isConstLeaf).length + 1 := by
              rw [List.filter_cons, hc1]
              simp
            omega
          cases c1 with
          | binaryOperatorNode o cs => exact nomatch hc1
          | unaryOperatorNode o c => exact nomatch hc1
          | memberNode f ar b => exact nomatch hc1
          | implicitCastNode k c => exact nomatch hc1
          | leafExprNode e1 =>
            rw [isConstLeaf] at hc1
            rcases hu : evalConst? e1 with _ | u
            · rw [hu] at hc1; cases hc1
            cases c2 with
            | binaryOperatorNode o cs =>
              simp [derefOffsetGo, hcmp, hu, specConstPair]
              rcases hm : specMism r1 r2 with _ | ⟨p, ps⟩ <;> simp
            | unaryOperatorNode o c =>
              simp [derefOffsetGo, hcmp, hu, specConstPair]
              rcases hm : specMism r1 r2 with _ | ⟨p, ps⟩ <;> simp
            | memberNode f ar b =>
              simp [derefOffsetGo, hcmp, hu, specConstPair]
              rcases hm : specMism r1 r2 with _ | ⟨p, ps⟩ <;> simp
            | implicitCastNode k c =>
              simp [derefOffsetGo, hcmp, hu, specConstPair]
              rcases hm : specMism r1 r2 with _ | ⟨p, ps⟩ <;> simp
            | leafExprNode e2 =>
              rcases hd : evalConst? e2 with _ | d
              · simp [derefOffsetGo, hcmp, hu, hd, specConstPair]
                rcases hm : specMism r1 r2 with _ | ⟨p, ps⟩ <;>
                  simp [specConstPair, hu, hd]
              · have hgo : derefOffsetGo .add
                    (Node.leafExprNode e1 :: r1) (Node.leafExprNode e2 :: r2) 0 =
                    (if inIntRange (d - u) = true then
                      derefOffsetGo .add r1 r2 (d - u) else none) := by
                  simp [derefOffsetGo, hcmp, hu, hd]
                rw [hgo, go_tail r1 r2 (d - u) hlen hcr]
                rcases hr : inIntRange (d - u) with _ | _ <;>
                  rcases hm : specMism r1 r2 with _ | ⟨p, ps⟩ <;>
                  simp [specConstPair, hu, hd, hr, hm]

theorem getDerefOffset_spec (cs1 : List Node) (d : Node)
    (hc : (cs1.filter isConstLeaf).length ≤ 1) :
    getDerefOffset (.binaryOperatorNode .add cs1) d =
      specGetDerefOffset (.binaryOperatorNode .add cs1) d := by
  cases d with
  | binaryOperatorNode o2 cs2 =>
    cases o2 with
    | add =>
      rw [getDerefOffset, specGetDerefOffset]
      by_cases hlen : cs1.length = cs2.length
      · rw [if_neg (by simp), if_neg (by simpa using hlen), if_pos hlen]
        exact go_spec cs1 cs2 hlen hc
      · rw [if_neg (by simp), if_pos (by simpa using hlen), if_neg hlen]
    | mul => simp [getDerefOffset, specGetDerefOffset]
    | div => simp [getDerefOffset, specGetDerefOffset]
    | rem => simp [getDerefOffset, specGetDerefOffset]
    | sub => simp [getDerefOffset, specGetDerefOffset]
  | unaryOperatorNode o c => rfl
  | memberNode f ar b => rfl
  | implicitCastNode k c => rfl
  | leafExprNode e => rfl



/-- C2: `GetDerefOffset` matches its specification on canonical arguments —
explicitly, for an additive upper-bound root whose child list carries at most
one integer-constant leaf (which `ConstantFold` guarantees for canonical
trees), it returns a provable delta iff the dereference root is also additive
with the same child count and the children compare structurally equal except
for at most one pair of integer-constant leaves, the delta being the
dereference constant minus the bound constant with overflow detection —
together with the two concrete cases: bound `p + i` against dereference
`p + i + 1` gives offset `1`, and bound `p + i*j` against dereference
`p + i + j` gives no offset. -/
theorem C2_deref_offset_characterization :
    (∀ (cs1 : List Node) (d : Node), (cs1.filter isConstLeaf).length ≤ 1 →
      getDerefOffset (.binaryOperatorNode .add cs1) d =
        specGetDerefOffset (.binaryOperatorNode .add cs1) d) ∧
    ((normalizeAST (.bin .add (.var 0) (.var 1))).bind (fun u =>
      (normalizeAST (.bin .add (.bin .add (.var 0) (.var 1)) (.intLit 1))).bind
        (fun d => getDerefOffset u d)) = some 1) ∧
    ((normalizeAST (.bin .add (.var 0) (.bin .mul (.var 1) (.var 2)))).bind
      (fun u =>
        (normalizeAST (.bin .add (.bin .add (.var 0) (.var 1)) (.var 2))).bind
          (fun d => getDerefOffset u d)) = none) := by
  refine ⟨fun cs1 d hc => getDerefOffset_spec cs1 d hc, ?_, ?_⟩
  · have h1 : createRoot (.bin .add (.var 0) (.var 1)) =
        .binaryOperatorNode .add [.leafExprNode zeroLit,
          .binaryOperatorNode .add
            [.leafExprNode (.var 0), .leafExprNode (.var 1)]] := by
      simp [createRoot, mkAddZero, Expr.create]
    have h2 : createRoot (.bin .add (.bin .add (.var 0) (.var 1)) (.intLit 1)) =
        .binaryOperatorNode .add [.leafExprNode zeroLit,
          .binaryOperatorNode .add
            [.binaryOperatorNode .add
              [.leafExprNode (.var 0), .leafExprNode (.var 1)],
             .leafExprNode (.intLit 1)]] := by
      simp [createRoot, mkAddZero, Expr.create]
    have hu : normalizeAST (.bin .add (.var 0) (.var 1)) =
        some (.binaryOperatorNode .add [.leafExprNode (.var 0),
          .leafExprNode (.var 1), .leafExprNode (.intLit 0)]) := by
      rw [normalizeAST, normalizeNode, h1]
      decide
    have hd : normalizeAST (.bin .add (.bin .add (.var 0) (.var 1)) (.intLit 1)) =
        some (.binaryOperatorNode .add [.leafExprNode (.var 0),
          .leafExprNode (.var 1), .leafExprNode (.intLit 1)]) := by
      rw [normalizeAST, normalizeNode, h2]
      decide
    rw [hu, hd]
    decide
  · have h1 : createRoot (.bin .add (.var 0) (.bin .mul (.var 1) (.var 2))) =
        .binaryOperatorNode .add [.leafExprNode zeroLit,
          .binaryOperatorNode .add
            [.leafExprNode (.var 0),
             .binaryOperatorNode .mul
               [.leafExprNode (.var 1), .leafExprNode (.var 2)]]] := by
      simp [createRoot, mkAddZero, Expr.create]
    have h2 : createRoot (.bin .add (.bin .add (.var 0) (.var 1)) (.var 2)) =
        .binaryOperatorNode .add [.leafExprNode zeroLit,
          .binaryOperatorNode .add
            [.binaryOperatorNode .add
              [.leafExprNode (.var 0), .leafExprNode (.var 1)],
             .leafExprNode (.var 2)]] := by
      simp [createRoot, mkAddZero, Expr.create]
    have hu : normalizeAST (.bin .add (.var 0) (.bin .mul (.var 1) (.var 2))) =
        some (.binaryOperatorNode .add
          [.binaryOperatorNode .mul
            [.leafExprNode (.var 1), .leafExprNode (.var 2)],
           .leafExprNode (.var 0), .leafExprNode (.intLit 0)]) := by
      rw [normalizeAST, normalizeNode, h1]
      decide
    have hd : normalizeAST (.bin .add (.bin .add (.var 0) (.var 1)) (.var 2)) =
        some (.binaryOperatorNode .add [.leafExprNode (.var 0),
          .leafExprNode (.var 1), .leafExprNode (.var 2),
          .leafExprNode (.intLit 0)]) := by
      rw [normalizeAST, normalizeNode, h2]
      decide
    rw [hu, hd]
    decide

/-- C2 (witness): the characterization applied to the canonical bound
`v5 + 3` and dereference `v5 + 7`. -/
theorem C2_deref_offset_characterization_witness :
    getDerefOffset
      (.binaryOperatorNode .add
        [.leafExprNode (.var 5), .leafExprNode (.intLit 3)])
      (.binaryOperatorNode .add
        [.leafExprNode (.var 5), .leafExprNode (.intLit 7)]) =
    specGetDerefOffset
      (.binaryOperatorNode .add
        [.leafExprNode (.var 5), .leafExprNode (.intLit 3)])
      (.binaryOperatorNode .add
        [.leafExprNode (.var 5), .leafExprNode (.intLit 7)]) :=
  C2_deref_offset_characterization.1
    [.leafExprNode (.var 5), .leafExprNode (.intLit 3)]
    (.binaryOperatorNode .add
      [.leafExprNode (.var 5), .leafExprNode (.intLit 7)])
    (by decide)



/-! ## Worklist bookkeeping for the fixpoint engine (C7) -/

namespace QueueSet

variable {T : Type _} [DecidableEq T]

theorem append_len (q : QueueSet T) (x : T) :
    (q.append x).queue.length ≤ q.queue.length + 1 := by
  rw [append]
  split <;> simp

theorem foldl_append_len : ∀ (l : List T) (q : QueueSet T),
    (l.foldl (fun q b => q.append b) q).queue.length ≤ q.queue.length + l.length := by
  intro l
  induction l with
  | nil => intro q; simp
  | cons x l ih =>
    intro q
    have h1 := ih (q.append x)
    have h2 := append_len q x
    simp only [List.foldl_cons, List.length_cons]
    omega

theorem mem_append_left {q : QueueSet T} {c : T} (h : c ∈ q.queue) (x : T) :
    c ∈ (q.append x).queue := by
  rw [append]
  split
  · exact h
  · exact List.mem_append_left _ h

theorem mem_append_self {q : QueueSet T} (hg : q.Good) (x : T) :
    x ∈ (q.append x).queue := by
  rw [append]
  split
  · next hx => exact (hg.2 x).mpr hx
  · exact List.mem_append_right _ (List.mem_singleton_self x)

theorem good_foldl_append : ∀ (l : List T) (q : QueueSet T), q.Good →
    (l.foldl (fun q b => q.append b) q).Good := by
  intro l
  induction l with
  | nil => intro q hg; exact hg
  | cons x l ih => intro q hg; exact ih (q.append x) (good_append hg x)

theorem mem_foldl_append_left : ∀ (l : List T) (q : QueueSet T) {c : T},
    c ∈ q.queue → c ∈ (l.foldl (fun q b => q.append b) q).queue := by
  intro l
  induction l with
  | nil => intro q c h; exact h
  | cons x l ih => intro q c h; exact ih (q.append x) (mem_append_left h x)

theorem mem_foldl_append_elem : ∀ (l : List T) (q : QueueSet T) {c : T},
    q.Good → c ∈ l → c ∈ (l.foldl (fun q b => q.append b) q).queue := by
  intro l
  induction l with
  | nil => intro q c _ h; cases h
  | cons x l ih =>
    intro q c hg h
    rcases List.mem_cons.mp h with rfl | h
    · exact mem_foldl_append_left l (q.append c) (mem_append_self hg c)
    · exact ih (q.append x) (good_append hg x) h

end QueueSet

namespace DataflowProblem

variable {n : Nat} {F : Type _} [DecidableEq F] [Fintype F]

theorem outF_mono (P : DataflowProblem n F) (b : Fin n) {s t : Finset F}
    (h : s ⊆ t) : P.outF b s ⊆ P.outF b t :=
  Finset.union_subset_union (Finset.sdiff_subset_sdiff h (Finset.Subset.refl _))
    (Finset.Subset.refl _)

theorem meetIn_mono (P : DataflowProblem n F) {o1 o2 : Fin n → Finset F}
    (h : ∀ p, o1 p ⊆ o2 p) (b : Fin n) : P.meetIn o1 b ⊆ P.meetIn o2 b := by
  rw [meetIn, meetIn]
  split
  · exact Finset.Subset.refl _
  · have haux : ∀ (l : List (Fin n)) (a1 a2 : Finset F), a1 ⊆ a2 →
        l.foldr (fun p acc => acc ∩ (o1 p).filter (fun f => P.prune p b f)) a1 ⊆
        l.foldr (fun p acc => acc ∩ (o2 p).filter (fun f => P.prune p b f)) a2 := by
      intro l
      induction l with
      | nil => intro a1 a2 ha; exact ha
      | cons p l ih =>
        intro a1 a2 ha
        exact Finset.inter_subset_inter (ih a1 a2 ha)
          (Finset.filter_subset_filter _ (h p))
    exact haux (P.preds b) _ _ (Finset.Subset.refl _)

theorem meetIn_congr (P : DataflowProblem n F) {o1 o2 : Fin n → Finset F}
    (b : Fin n) (h : ∀ p ∈ P.preds b, o1 p = o2 p) :
    P.meetIn o1 b = P.meetIn o2 b := by
  rw [meetIn, meetIn]
  split
  · rfl
  · have haux : ∀ (l : List (Fin n)), (∀ p ∈ l, o1 p = o2 p) →
        l.foldr (fun p acc => acc ∩ (o1 p).filter (fun f => P.prune p b f))
          Finset.univ =
        l.foldr (fun p acc => acc ∩ (o2 p).filter (fun f => P.prune p b f))
          Finset.univ := by
      intro l
      induction l with
      | nil => intro _; rfl
      | cons p l ih =>
        intro hl
        rw [List.foldr_cons, List.foldr_cons,
          ih (fun x hx => hl x (List.mem_cons_of_mem p hx)),
          hl p (List.mem_cons_self p l)]
    exact haux (P.preds b) h

theorem mem_succs (P : DataflowProblem n F) {b x : Fin n} :
    x ∈ P.succs b ↔ b ∈ P.preds x := by
  rw [succs, List.mem_filter]
  simp [List.mem_finRange]

theorem succs_len_le (P : DataflowProblem n F) (b : Fin n) :
    (P.succs b).length ≤ n := by
  rw [succs]
  have h := List.length_filter_le (fun s => b ∈ P.preds s) (List.finRange n)
  simpa [List.length_finRange] using h

end DataflowProblem

namespace DFState

variable {n : Nat} {F : Type _} [DecidableEq F] [Fintype F]

/-- The descending-chain invariant: every block's Out set already contains
what its transfer function would produce from the current meet, so each
recomputation can only shrink it.  True initially because all Outs start at
Top. -/
def InvD (P : DataflowProblem n F) (σ : DFState n F) : Prop :=
  ∀ c, P.outF c (P.meetIn σ.out c) ⊆ σ.out c

theorem invD_init (P : DataflowProblem n F) : InvD P (dfInit n F) :=
  fun _ => Finset.subset_univ _

theorem invD_step (P : DataflowProblem n F) (r : Bool) {σ : DFState n F}
    (hI : InvD P σ) : InvD P (dfStep P r σ) := by
  rcases hnext : σ.wl.next with _ | b
  · intro c
    rw [dfStep, hnext]
    exact hI c
  · intro c
    rw [dfStep, hnext]
    simp only
    have hsub : ∀ p, Function.update σ.out b (P.outF b (P.meetIn σ.out b)) p ⊆
        σ.out p := by
      intro p
      rcases eq_or_ne p b with rfl | hne
      · rw [Function.update_same]
        exact hI p
      · rw [Function.update_noteq hne]
    rcases eq_or_ne c b with rfl | hne
    · rw [Function.update_same]
      exact P.outF_mono c (P.meetIn_mono hsub c)
    · rw [Function.update_noteq hne]
      exact (P.outF_mono c (P.meetIn_mono hsub c)).trans (hI c)

theorem measure_step (P : DataflowProblem n F) (r : Bool) {σ : DFState n F}
    (hq : σ.wl.queue ≠ []) (hI : InvD P σ) :
    dfMeasure (dfStep P r σ) + 1 ≤ dfMeasure σ := by
  rcases hqq : σ.wl.queue with _ | ⟨b, t⟩
  · exact absurd hqq hq
  have hnext : σ.wl.next = some b := by rw [QueueSet.next, hqq]; rfl
  have hwl1 : (σ.wl.remove b).queue = t := by
    rw [QueueSet.remove, if_neg (by rw [hqq]; simp), hqq]
    rfl
  have hsum : (∑ c, (Function.update σ.out b
        (P.outF b (P.meetIn σ.out b)) c).card) + (σ.out b).card =
      (∑ c, (σ.out c).card) + (P.outF b (P.meetIn σ.out b)).card := by
    have h1 : ∀ c, (Function.update σ.out b (P.outF b (P.meetIn σ.out b)) c).card =
        Function.update (fun c => (σ.out c).card) b
          (P.outF b (P.meetIn σ.out b)).card c := by
      intro c
      exact Function.apply_update (fun _ s => Finset.card s) σ.out b _ c
    rw [Finset.sum_congr rfl (fun c _ => h1 c)]
    rw [Finset.sum_update_of_mem (Finset.mem_univ b)]
    rw [← Finset.erase_eq]
    rw [← Finset.add_sum_erase Finset.univ (fun c => (σ.out c).card)
      (Finset.mem_univ b)]
    omega
  rw [dfMeasure, dfMeasure, dfStep, hnext]
  simp only
  by_cases hchg : P.outF b (P.meetIn σ.out b) = σ.out b
  · rw [if_pos hchg]
    have hcards : (P.outF b (P.meetIn σ.out b)).card = (σ.out b).card := by
      rw [hchg]
    have hS : (∑ c, (Function.update σ.out b
          (P.outF b (P.meetIn σ.out b)) c).card) = ∑ c, (σ.out c).card := by
      omega
    rw [hS, hwl1, hqq]
    simp only [List.length_cons]
    omega
  · rw [if_neg hchg]
    have hcard : (P.outF b (P.meetIn σ.out b)).card < (σ.out b).card :=
      Finset.card_lt_card (HasSubset.Subset.ssubset_of_ne (hI b) hchg)
    have hS1 : (∑ c, (Function.update σ.out b
          (P.outF b (P.meetIn σ.out b)) c).card) + 1 ≤ ∑ c, (σ.out c).card := by
      omega
    have hmul : ((∑ c, (Function.update σ.out b
          (P.outF b (P.meetIn σ.out b)) c).card) + 1) * (n + 1) ≤
        (∑ c, (σ.out c).card) * (n + 1) := Nat.mul_le_mul_right _ hS1
    rw [Nat.add_mul, Nat.one_mul] at hmul
    have hlen : (if r then ((σ.wl.remove b).append b).queue.length
        else ((P.succs b).foldl (fun q s => q.append s) (σ.wl.remove b)).queue.length)
        ≤ t.length + n := by
      rcases r with _ | _
      · simp only [Bool.false_eq_true, if_false]
        have h1 := QueueSet.foldl_append_len (P.succs b) (σ.wl.remove b)
        have h2 := P.succs_len_le b
        rw [hwl1] at h1
        omega
      · simp only [if_true]
        have h1 := QueueSet.append_len (σ.wl.remove b) b
        have hn : 0 < n := b.pos
        rw [hwl1] at h1
        omega
    rcases r with _ | _ <;> simp only [Bool.false_eq_true, if_false, if_true] at hlen ⊢ <;>
      (rw [hqq]; simp only [List.length_cons]; omega)

theorem loop_terminates (P : DataflowProblem n F) (r : Bool) :
    ∀ (fuel : Nat) (σ : DFState n F), InvD P σ → dfMeasure σ < fuel →
      (dfLoopFuel P r fuel σ).wl.queue = [] := by
  intro fuel
  induction fuel with
  | zero => intro σ _ h; omega
  | succ f ih =>
    intro σ hI hm
    rw [dfLoopFuel]
    split
    · next hq => exact hq
    · next hq =>
      refine ih _ (invD_step P r hI) ?_
      have h1 := measure_step P r hq hI
      omega

end DFState



namespace DFState

variable {n : Nat} {F : Type _} [DecidableEq F] [Fintype F]

/-- The worklist soundness invariant: every block not pending on the work
list already satisfies both dataflow equations with respect to the current
state. -/
def EqOk (P : DataflowProblem n F) (σ : DFState n F) : Prop :=
  ∀ c : Fin n, c ∉ σ.wl.queue →
    σ.inS c = P.meetIn σ.out c ∧ σ.out c = P.outF c (σ.inS c)

theorem good_step (P : DataflowProblem n F) (r : Bool) {σ : DFState n F}
    (hg : σ.wl.Good) : (dfStep P r σ).wl.Good := by
  rcases hqq : σ.wl.queue with _ | ⟨b, t⟩
  · have hnext : σ.wl.next = none := by rw [QueueSet.next, hqq]; rfl
    rw [dfStep, hnext]
    exact hg
  · have hnext : σ.wl.next = some b := by rw [QueueSet.next, hqq]; rfl
    rw [dfStep, hnext]
    simp only
    have hg1 : (σ.wl.remove b).Good := QueueSet.good_removeFront hg hnext
    split
    · exact hg1
    · split
      · exact QueueSet.good_append hg1 b
      · exact QueueSet.good_foldl_append _ _ hg1

theorem good_init : (dfInit n F).wl.Good :=
  QueueSet.good_foldl_append _ _ ⟨List.nodup_nil, by simp [QueueSet.Good]⟩

theorem eqok_init (P : DataflowProblem n F) : EqOk P (dfInit n F) := by
  intro c hc
  exfalso
  apply hc
  exact QueueSet.mem_foldl_append_elem _ _ ⟨List.nodup_nil, by simp⟩
    (by simp [List.mem_reverse, List.mem_finRange])

theorem eqok_step (P : DataflowProblem n F) {σ : DFState n F}
    (hg : σ.wl.Good) (he : EqOk P σ) : EqOk P (dfStep P false σ) := by
  rcases hqq : σ.wl.queue with _ | ⟨b, t⟩
  · have hnext : σ.wl.next = none := by rw [QueueSet.next, hqq]; rfl
    rw [dfStep, hnext]
    exact he
  · have hnext : σ.wl.next = some b := by rw [QueueSet.next, hqq]; rfl
    have hwl1 : (σ.wl.remove b).queue = t := by
      rw [QueueSet.remove, if_neg (by rw [hqq]; simp), hqq]
      rfl
    have hg1 : (σ.wl.remove b).Good := QueueSet.good_removeFront hg hnext
    rw [dfStep, hnext]
    simp only [Bool.false_eq_true, if_false]
    intro c hc
    dsimp only at hc ⊢
    by_cases hchg : P.outF b (P.meetIn σ.out b) = σ.out b
    · rw [if_pos hchg, hwl1] at hc
      have hout : ∀ p, Function.update σ.out b (P.outF b (P.meetIn σ.out b)) p =
          σ.out p := by
        intro p
        rcases eq_or_ne p b with rfl | hne
        · rw [Function.update_same, hchg]
        · rw [Function.update_noteq hne]
      rcases eq_or_ne c b with rfl | hne
      · refine ⟨?_, ?_⟩
        · rw [Function.update_same]
          exact P.meetIn_congr c (fun p _ => (hout p).symm)
        · rw [Function.update_same, Function.update_same]
      · have hcq : c ∉ σ.wl.queue := by
          rw [hqq]
          intro hmem
          rcases List.mem_cons.mp hmem with h | h
          · exact hne h
          · exact hc h
        obtain ⟨h1, h2⟩ := he c hcq
        refine ⟨?_, ?_⟩
        · rw [Function.update_noteq hne, h1]
          exact P.meetIn_congr c (fun p _ => (hout p).symm)
        · rw [Function.update_noteq hne, Function.update_noteq hne]
          exact h2
    · rw [if_neg hchg] at hc
      have hcs : c ∉ P.succs b := fun h =>
        hc (QueueSet.mem_foldl_append_elem _ _ hg1 h)
      have hct : c ∉ t := fun h =>
        hc (QueueSet.mem_foldl_append_left _ _ (by rw [hwl1]; exact h))
      have hnp : ∀ p ∈ P.preds c, p ≠ b := by
        intro p hp heq
        subst heq
        exact hcs (P.mem_succs.mpr hp)
      have hout : ∀ p ∈ P.preds c,
          Function.update σ.out b (P.outF b (P.meetIn σ.out b)) p = σ.out p :=
        fun p hp => Function.update_noteq (hnp p hp) _ _
      rcases eq_or_ne c b with rfl | hne
      · refine ⟨?_, ?_⟩
        · rw [Function.update_same]
          exact P.meetIn_congr c (fun p hp => (hout p hp).symm)
        · rw [Function.update_same, Function.update_same]
      · have hcq : c ∉ σ.wl.queue := by
          rw [hqq]
          intro hmem
          rcases List.mem_cons.mp hmem with h | h
          · exact hne h
          · exact hct h
        obtain ⟨h1, h2⟩ := he c hcq
        refine ⟨?_, ?_⟩
        · rw [Function.update_noteq hne, h1]
          exact P.meetIn_congr c (fun p hp => (hout p hp).symm)
        · rw [Function.update_noteq hne, Function.update_noteq hne]
          exact h2

theorem eqok_loop (P : DataflowProblem n F) : ∀ (fuel : Nat) (σ : DFState n F),
    σ.wl.Good → EqOk P σ →
    (dfLoopFuel P false fuel σ).wl.Good ∧ EqOk P (dfLoopFuel P false fuel σ) := by
  intro fuel
  induction fuel with
  | zero => intro σ hg he; exact ⟨hg, he⟩
  | succ f ih =>
    intro σ hg he
    rw [dfLoopFuel]
    split
    · exact ⟨hg, he⟩
    · exact ih _ (good_step P false hg) (eqok_step P hg he)

/-- The engine run to completion: the fuel is one more than the measure of
the initial state, which `loop_terminates` shows empties the work list. -/
def dfRun (P : DataflowProblem n F) (r : Bool) : DFState n F :=
  dfLoopFuel P r (dfMeasure (dfInit n F) + 1) (dfInit n F)

end DFState



/-- C7: the fixpoint engine terminates on every finite control-flow graph —
under either re-enqueue policy, the measure (total Out-set size, then queue
length) strictly decreases at every step, so the measure-sized fuel empties
the work list — and, when the *successors* of a changed block are
re-enqueued, the final In/Out sets of every block satisfy the dataflow
equations `In = ∩ pruned predecessor Outs` (entry seeded separately) and
`Out = (In − Kill) ∪ Gen`. -/
theorem C7_fixpoint_termination_and_equations :
    (∀ (n : Nat) (F : Type) (i1 : DecidableEq F) (i2 : Fintype F)
      (P : DataflowProblem n F) (r : Bool),
      (DFState.dfRun P r).wl.queue = []) ∧
    (∀ (n : Nat) (F : Type) (i1 : DecidableEq F) (i2 : Fintype F)
      (P : DataflowProblem n F) (c : Fin n),
      (DFState.dfRun P false).inS c =
        P.meetIn (DFState.dfRun P false).out c ∧
      (DFState.dfRun P false).out c =
        P.outF c ((DFState.dfRun P false).inS c)) := by
  constructor
  · intro n F i1 i2 P r
    exact DFState.loop_terminates P r _ _ (DFState.invD_init P)
      (Nat.lt_succ_self _)
  · intro n F i1 i2 P c
    have hterm : (DFState.dfRun P false).wl.queue = [] :=
      DFState.loop_terminates P false _ _ (DFState.invD_init P)
        (Nat.lt_succ_self _)
    have h := (DFState.eqok_loop P (DFState.dfMeasure (DFState.dfInit n F) + 1)
      (DFState.dfInit n F) DFState.good_init (DFState.eqok_init P)).2
    exact h c (by rw [DFState.dfRun] at hterm; rw [hterm]; exact List.not_mem_nil c)

/-- The two-block problem on which the literal self-re-enqueue policy goes
wrong: block 1 has the entry block 0 as its only predecessor, nothing is
generated, killed, or pruned, and the entry In is empty. -/
def selfPolicyCex : DataflowProblem 2 (Fin 1) where
  preds := fun b => if b = 1 then [0] else []
  gen := fun _ => ∅
  kill := fun _ => ∅
  prune := fun _ _ _ => true
  entry := 0
  entryIn := ∅

/-- C7 (counterexample to the literal policy): if a changed block re-enqueues
only itself — the spec's wording, "each block re-enqueued whenever its Out
set changes" — the engine still terminates, but block 1 (reachable from the
entry, its only predecessor) ends with `In = ⊤` from the entry's stale
initial Out, violating `In = ∩ pruned predecessor Outs` after the entry's
Out has shrunk to `∅`. -/
theorem C7_self_reenqueue_counterexample :
    (DFState.dfRun selfPolicyCex true).wl.queue = [] ∧
    (0 : Fin 2) ∈ selfPolicyCex.preds 1 ∧
    selfPolicyCex.entry = 0 ∧
    (DFState.dfRun selfPolicyCex true).inS 1 ≠
      selfPolicyCex.meetIn (DFState.dfRun selfPolicyCex true).out 1 := by
  refine ⟨?_, by decide, by decide, ?_⟩
  · exact DFState.loop_terminates selfPolicyCex true _ _
      (DFState.invD_init selfPolicyCex) (Nat.lt_succ_self _)
  · decide


end BW
